import Mathlib

/-!
Verification of the in-memory inode store and FUSE dispatcher of the ffs
repository (src/src/fs.rs and src/src/json.rs), as a shallow embedding.

Modelling conventions:
- u64 inode numbers are Nat (usize casts on 64-bit are lossless for the
  in-range values the code manipulates);
- i64 offsets and lengths are Int; the one place the code casts a possibly
  out-of-range i64 to usize (read) takes the value modulo 2 ^ 64;
- byte buffers are List Nat; strings are converted with their UTF-8 byte
  representations where the code works on bytes;
- HashMap String DirEntry is Finmap, which is extensional like a hash map:
  two maps are equal iff they associate the same values to the same keys;
- names arrive as String: the OsStr-to-str conversion in the Rust code can
  also fail on non-UTF-8 names and replies ENOENT before touching any state,
  which no claim exercises;
- a Rust panic (slice out of bounds, assert, unreachable) is the reply
  value Reply.panicked;
- the fuser reply object is the returned Reply value; each dispatcher
  operation returns the reply together with the table state it leaves behind.
-/

/-- Models fuser FileType restricted to the two kinds this code produces. -/
inductive FileKind where
  | regularFile
  | directory
deriving DecidableEq, Repr

/-- Models fs.rs DirType. -/
inductive DirType where
  | named
  | list
deriving DecidableEq, Repr

/-- Models fs.rs DirEntry. -/
structure DirEntry where
  kind : FileKind
  inum : Nat
deriving DecidableEq, Repr

/-- Children maps: HashMap String DirEntry, modelled extensionally. -/
abbrev Children := Finmap (fun _ : String => DirEntry)

/-- Models fs.rs Entry. -/
inductive Entry where
  | file (contents : List Nat)
  | directory (dirType : DirType) (children : Children)
deriving DecidableEq

/-- Models fs.rs Inode. -/
structure Inode where
  parent : Nat
  inum : Nat
  entry : Entry
deriving DecidableEq

/-- Modelled from the spec: the Config record of the repository (its
config.rs is not under src/). Fields per spec section 4.1: mount identity
(uid, gid, timestamp, permission masks) and naming policy (newline
appending, zero-padded indices, name normalization); normalizeName is an
arbitrary deterministic function. -/
structure Config where
  uid : Nat
  gid : Nat
  timestamp : Nat
  filemode : Nat
  dirmode : Nat
  addNewlines : Bool
  padElementNames : Bool
  normalizeName : String → String

/-- Models fs.rs FS: a vector of nullable inodes indexed by inode number. -/
structure FS where
  inodes : List (Option Inode)
  config : Config

/-- Models fs.rs FSError. -/
inductive FSError where
  | noSuchInode (inum : Nat)
  | invalidInode (inum : Nat)
deriving DecidableEq, Repr

/-- POSIX errno values the dispatcher replies with. -/
inductive Errno where
  | ENOENT | ENOTDIR | EISDIR | EEXIST | ENOTEMPTY | EACCES | EPERM
  | EINVAL | EOPNOTSUPP | EBADF | ENODEV | ENOSYS
deriving DecidableEq, Repr

/-- Models fuser FileAttr; timestamps are the Config timestamp. -/
structure FileAttr where
  ino : Nat
  atime : Nat
  crtime : Nat
  ctime : Nat
  mtime : Nat
  nlink : Nat
  size : Nat
  blksize : Nat
  blocks : Nat
  kind : FileKind
  uid : Nat
  gid : Nat
  perm : Nat
  rdev : Nat
  flags : Nat
deriving DecidableEq, Repr

/-- The reply a dispatcher operation hands to its fuser reply object.
Reply.panicked records that the Rust code would panic instead of replying. -/
inductive Reply where
  | ok
  | error (errno : Errno)
  | attrReply (attr : FileAttr)
  | entry (attr : FileAttr)
  | data (bytes : List Nat)
  | written (count : Nat)
  | panicked
deriving DecidableEq, Repr

/-- Models the caller identity carried by a fuser Request. -/
structure Request where
  uid : Nat
  gid : Nat
deriving DecidableEq, Repr

instance : DecidableEq (Except FSError Inode)
  | .ok a, .ok b =>
      decidable_of_iff (a = b) ⟨fun h => by rw [h], fun h => by cases h; rfl⟩
  | .ok _, .error _ => isFalse (by intro h; cases h)
  | .error _, .ok _ => isFalse (by intro h; cases h)
  | .error a, .error b =>
      decidable_of_iff (a = b) ⟨fun h => by rw [h], fun h => by cases h; rfl⟩

namespace Entry

/-- Models Entry::size in fs.rs. -/
def size : Entry → Nat
  | .file s => s.length
  | .directory .named files => (files.entries.map (fun e => e.1.utf8ByteSize)).sum
  | .directory .list files => files.entries.card

/-- Models Entry::kind in fs.rs. -/
def kind : Entry → FileKind
  | .file _ => .regularFile
  | .directory _ _ => .directory

end Entry

namespace FS

/-- Models FS::fresh_inode in fs.rs: append a new inode at the next index. -/
def freshInode (fs : FS) (parent : Nat) (entry : Entry) : Nat × FS :=
  let inum := fs.inodes.length
  (inum, { fs with inodes := fs.inodes ++ [some ⟨parent, inum, entry⟩] })

/-- Models FS::check_access in fs.rs. -/
def checkAccess (fs : FS) (req : Request) : Bool :=
  req.uid = fs.config.uid

/-- Models FS::get in fs.rs. -/
def get (fs : FS) (inum : Nat) : Except FSError Inode :=
  if fs.inodes.length ≤ inum then .error (.noSuchInode inum)
  else
    match fs.inodes[inum]? with
    | some (some inode) => .ok inode
    | _ => .error (.invalidInode inum)

/-- Models FS::mode in fs.rs. -/
def mode (fs : FS) (kind : FileKind) : Nat :=
  if kind = .directory then fs.config.dirmode else fs.config.filemode

/-- Models FS::attr in fs.rs. -/
def attr (fs : FS) (inode : Inode) : FileAttr :=
  let size := inode.entry.size
  let kind := inode.entry.kind
  let perm := fs.mode kind
  let nlink : Nat :=
    match inode.entry with
    | .directory _ files =>
        2 + (files.entries.filter (fun e => e.2.kind = .directory)).card
    | .file _ => 1
  { ino := inode.inum
    atime := fs.config.timestamp
    crtime := fs.config.timestamp
    ctime := fs.config.timestamp
    mtime := fs.config.timestamp
    nlink := nlink
    size := size
    blksize := 1
    blocks := size
    kind := kind
    uid := fs.config.uid
    gid := fs.config.gid
    perm := perm
    rdev := 0
    flags := 0 }

/-- Models the recurring get_mut-then-modify-children pattern of fs.rs
(mknod, mkdir, unlink, rmdir, rename): look the inode up mutably, expect a
directory, and replace its child map; none is the unreachable arm. -/
def modifyChildren (fs : FS) (j : Nat) (f : Children → Children) : Option FS :=
  match fs.inodes[j]? with
  | some (some ⟨p, i, .directory dt files⟩) =>
      some { fs with inodes := fs.inodes.set j (some ⟨p, i, .directory dt (f files)⟩) }
  | _ => none

/-- Models Filesystem::access in fs.rs. The libc constants: F_OK = 0,
X_OK = 1. The i32 mask and mode arithmetic stays in Nat: the kernel never
sends negative masks and the subtractions never go below zero because
x - (x AND y) is at most x. -/
def access (fs : FS) (req : Request) (inode : Nat) (mask : Nat) : Reply :=
  if mask = 0 then .ok
  else
    match fs.get inode with
    | .ok inode =>
      let mode := fs.mode inode.entry.kind
      let m :=
        if req.uid = 0 then
          let m0 := mask &&& 1
          let m1 := m0 - (m0 &&& (mode >>> 6))
          let m2 := m1 - (m1 &&& (mode >>> 3))
          m2 - (m2 &&& mode)
        else if req.uid = fs.config.uid then mask - (mask &&& (mode >>> 6))
        else if req.gid = fs.config.gid then mask - (mask &&& (mode >>> 3))
        else mask - (mask &&& mode)
      if m = 0 then .ok else .error .EACCES
    | .error _ => .error .ENOENT

/-- Models Filesystem::lookup in fs.rs. -/
def lookup (fs : FS) (parent : Nat) (name : String) : Reply :=
  match fs.get parent with
  | .error _ => .error .ENOENT
  | .ok dir =>
    match dir.entry with
    | .directory _ files =>
      match files.lookup name with
      | none => .error .ENOENT
      | some de =>
        match fs.get de.inum with
        | .error _ => .error .ENOENT
        | .ok file => .entry (fs.attr file)
    | .file _ => .error .ENOTDIR

/-- Models Filesystem::getattr in fs.rs. -/
def getattr (fs : FS) (ino : Nat) : Reply :=
  match fs.get ino with
  | .error _ => .error .ENOENT
  | .ok file => .attrReply (fs.attr file)

/-- Models Filesystem::read in fs.rs. The code slices the contents with
offset cast from i64 to usize; the slice panics whenever the cast offset
exceeds the buffer length. The size argument is ignored by the code. -/
def read (fs : FS) (ino : Nat) (offset : Int) : Reply :=
  match fs.get ino with
  | .error _ => .error .ENOENT
  | .ok file =>
    match file.entry with
    | .file s =>
        let idx := (offset % ((2 : Int) ^ 64)).toNat
        if idx ≤ s.length then .data (s.drop idx) else .panicked
    | .directory _ _ => .error .ENOENT

/-- Models Filesystem::readdir in fs.rs up to its table effects and errno
replies; the entry emission into the kernel-supplied buffer is transport
output and is not modelled. -/
def readdir (fs : FS) (ino : Nat) : Reply :=
  match fs.get ino with
  | .error _ => .error .ENOENT
  | .ok inode =>
    match inode.entry with
    | .file _ => .error .ENOTDIR
    | .directory _ _ => .ok

/-- Models Filesystem::mknod in fs.rs. S_IFMT = 0o170000, S_IFREG =
0o100000, S_IFDIR = 0o040000. -/
def mknod (fs : FS) (req : Request) (parent : Nat) (name : String) (mode : Nat) :
    Reply × FS :=
  if ¬ fs.checkAccess req then (.error .EACCES, fs)
  else
    let fileType := mode &&& 0o170000
    if ¬ (fileType = 0o100000 ∨ fileType = 0o040000) then (.error .ENOSYS, fs)
    else
      match fs.get parent with
      | .error _ => (.error .ENOENT, fs)
      | .ok pInode =>
        match pInode.entry with
        | .file _ => (.error .ENOTDIR, fs)
        | .directory _ files =>
          if name ∈ files then (.error .EEXIST, fs)
          else
            let ek : Entry × FileKind :=
              if fileType = 0o100000 then (.file [], .regularFile)
              else (.directory .named ∅, .directory)
            let res := fs.freshInode parent ek.1
            let inum := res.1
            let fs1 := res.2
            match fs1.modifyChildren parent (fun pf => pf.insert name ⟨ek.2, inum⟩) with
            | none => (.panicked, fs1)
            | some fs2 =>
              match fs2.get inum with
              | .ok newInode => (.entry (fs2.attr newInode), fs2)
              | .error _ => (.panicked, fs2)

/-- Models Filesystem::mkdir in fs.rs (the mode is only logged). -/
def mkdir (fs : FS) (req : Request) (parent : Nat) (name : String) :
    Reply × FS :=
  if ¬ fs.checkAccess req then (.error .EACCES, fs)
  else
    match fs.get parent with
    | .error _ => (.error .ENOENT, fs)
    | .ok pInode =>
      match pInode.entry with
      | .file _ => (.error .ENOTDIR, fs)
      | .directory _ files =>
        if name ∈ files then (.error .EEXIST, fs)
        else
          let res := fs.freshInode parent (.directory .named ∅)
          let inum := res.1
          let fs1 := res.2
          match fs1.modifyChildren parent (fun pf => pf.insert name ⟨.directory, inum⟩) with
          | none => (.panicked, fs1)
          | some fs2 =>
            match fs2.get inum with
            | .ok newInode => (.entry (fs2.attr newInode), fs2)
            | .error _ => (.panicked, fs2)

/-- Models Filesystem::write in fs.rs. The leading assert on a negative
offset is the panicked reply. -/
def write (fs : FS) (req : Request) (ino : Nat) (offset : Int) (data : List Nat) :
    Reply × FS :=
  if offset < 0 then (.panicked, fs)
  else if ¬ fs.checkAccess req then (.error .EACCES, fs)
  else
    match fs.get ino with
    | .error _ => (.error .ENOENT, fs)
    | .ok inode =>
      match inode.entry with
      | .directory _ _ => (.error .EISDIR, fs)
      | .file contents =>
        let extra : Int := (offset + data.length) - contents.length
        let contents1 :=
          if 0 < extra then contents ++ List.replicate extra.toNat 0 else contents
        let off := offset.toNat
        let contents2 := contents1.take off ++ data ++ contents1.drop (off + data.length)
        (.written data.length,
          { fs with inodes := fs.inodes.set ino (some ⟨inode.parent, inode.inum, .file contents2⟩) })

/-- Models Filesystem::unlink in fs.rs. The code looks the parent up
mutably once and removes from the same borrow; the removal is guarded by
the regular-file check, so the asserted remove always succeeds. -/
def unlink (fs : FS) (req : Request) (parent : Nat) (name : String) :
    Reply × FS :=
  if ¬ fs.checkAccess req then (.error .EACCES, fs)
  else
    match fs.get parent with
    | .error _ => (.error .ENOENT, fs)
    | .ok pInode =>
      match pInode.entry with
      | .file _ => (.error .ENOTDIR, fs)
      | .directory dt files =>
        match files.lookup name with
        | some ⟨.regularFile, _⟩ =>
            let inodes' := fs.inodes.set parent
              (some ⟨pInode.parent, pInode.inum, .directory dt (files.erase name)⟩)
            (.ok, { fs with inodes := inodes' })
        | _ => (.error .EPERM, fs)

/-- Models Filesystem::rmdir in fs.rs. The second, mutable parent lookup
re-reads a table that has not changed since the first, so the model erases
from the child map already in hand; the unreachable arms of the emptiness
check are the panicked reply. -/
def rmdir (fs : FS) (req : Request) (parent : Nat) (name : String) :
    Reply × FS :=
  if ¬ fs.checkAccess req then (.error .EACCES, fs)
  else
    match fs.get parent with
    | .error _ => (.error .ENOENT, fs)
    | .ok pInode =>
      match pInode.entry with
      | .file _ => (.error .ENOTDIR, fs)
      | .directory dt files =>
        match files.lookup name with
        | some ⟨.directory, inum⟩ =>
          (match fs.get inum with
           | .ok ⟨_, _, .directory _ dirFiles⟩ =>
              if ¬ (dirFiles = ∅) then (.error .ENOTEMPTY, fs)
              else
                let inodes' := fs.inodes.set parent
                  (some ⟨pInode.parent, pInode.inum, .directory dt (files.erase name)⟩)
                (.ok, { fs with inodes := inodes' })
           | _ => (.panicked, fs))
        | some ⟨.regularFile, _⟩ => (.error .ENOTDIR, fs)
        | none => (.error .ENOENT, fs)

/-- Models Filesystem::rename in fs.rs. Only the source name is compared
with the dot names; the rename flags are ignored by the code. -/
def rename (fs : FS) (req : Request) (parent : Nat) (name : String)
    (newparent : Nat) (newname : String) : Reply × FS :=
  if ¬ fs.checkAccess req then (.error .EACCES, fs)
  else
    let src := name
    if src = "." ∨ src = ".." then (.error .EINVAL, fs)
    else
      let tgt := newname
      match fs.get parent with
      | .ok ⟨_, _, .directory _ files⟩ =>
        match files.lookup src with
        | none => (.error .ENOENT, fs)
        | some srcDe =>
          let srcKind := srcDe.kind
          let srcInum := srcDe.inum
          match fs.get newparent with
          | .ok ⟨_, _, .directory _ nfiles⟩ =>
            let tgtInfoRes : Except Reply (Option (FileKind × Nat)) :=
              match nfiles.lookup tgt with
              | some tgtDe =>
                  if srcKind ≠ tgtDe.kind then .error (.error .ENOTDIR)
                  else .ok (some (tgtDe.kind, tgtDe.inum))
              | none => .ok none
            match tgtInfoRes with
            | .error r => (r, fs)
            | .ok tgtInfo =>
              let emptiness : Except Reply Unit :=
                match tgtInfo with
                | some (.directory, tgtInum) =>
                  match fs.get tgtInum with
                  | .ok ⟨_, _, .directory _ tfiles⟩ =>
                      if ¬ (tfiles = ∅) then .error (.error .ENOTEMPTY) else .ok ()
                  | _ => .error .panicked
                | _ => .ok ()
              match emptiness with
              | .error r => (r, fs)
              | .ok _ =>
                match fs.modifyChildren parent (fun f => f.erase src) with
                | none => (.panicked, fs)
                | some fs1 =>
                  match fs1.modifyChildren newparent (fun f => f.insert tgt ⟨srcKind, srcInum⟩) with
                  | none => (.panicked, fs1)
                  | some fs2 =>
                    match fs2.inodes[srcInum]? with
                    | some (some c) =>
                        let inodes' := fs2.inodes.set srcInum
                          (some ⟨newparent, c.inum, c.entry⟩)
                        (.ok, { fs2 with inodes := inodes' })
                    | _ => (.panicked, fs2)
          | _ => (.error .ENOENT, fs)
      | _ => (.error .ENOENT, fs)

/-- Models Filesystem::fallocate in fs.rs: argument checks first, then the
mode check, then access, then the inode cases. -/
def fallocate (fs : FS) (req : Request) (ino : Nat) (offset length : Int)
    (mode : Int) : Reply × FS :=
  if offset < 0 ∨ length ≤ 0 then (.error .EINVAL, fs)
  else if mode ≠ 0 then (.error .EOPNOTSUPP, fs)
  else if ¬ fs.checkAccess req then (.error .EACCES, fs)
  else
    match fs.get ino with
    | .ok ⟨parent, inum, .file contents⟩ =>
        let extra : Int := (offset + length) - contents.length
        let contents' :=
          if 0 < extra then contents ++ List.replicate extra.toNat 0 else contents
        (.ok, { fs with inodes := fs.inodes.set ino (some ⟨parent, inum, .file contents'⟩) })
    | .ok _ => (.error .EBADF, fs)
    | .error _ => (.error .ENODEV, fs)

end FS

/-- A dispatcher request: one constructor per modelled operation. -/
inductive Op where
  | access (req : Request) (ino : Nat) (mask : Nat)
  | lookup (req : Request) (parent : Nat) (name : String)
  | getattr (req : Request) (ino : Nat)
  | read (req : Request) (ino : Nat) (offset : Int)
  | readdir (req : Request) (ino : Nat)
  | mknod (req : Request) (parent : Nat) (name : String) (mode : Nat)
  | mkdir (req : Request) (parent : Nat) (name : String)
  | write (req : Request) (ino : Nat) (offset : Int) (data : List Nat)
  | unlink (req : Request) (parent : Nat) (name : String)
  | rmdir (req : Request) (parent : Nat) (name : String)
  | rename (req : Request) (parent : Nat) (name : String) (newparent : Nat) (newname : String)
  | fallocate (req : Request) (ino : Nat) (offset length : Int) (mode : Int)

/-- Runs one dispatcher operation, returning the reply and the table state
it leaves behind (read-side operations leave the state untouched). -/
def dispatch (fs : FS) : Op → Reply × FS
  | .access req ino mask => (fs.access req ino mask, fs)
  | .lookup _ parent name => (fs.lookup parent name, fs)
  | .getattr _ ino => (fs.getattr ino, fs)
  | .read _ ino offset => (fs.read ino offset, fs)
  | .readdir _ ino => (fs.readdir ino, fs)
  | .mknod req parent name mode => fs.mknod req parent name mode
  | .mkdir req parent name => fs.mkdir req parent name
  | .write req ino offset data => fs.write req ino offset data
  | .unlink req parent name => fs.unlink req parent name
  | .rmdir req parent name => fs.rmdir req parent name
  | .rename req parent name newparent newname => fs.rename req parent name newparent newname
  | .fallocate req ino offset length mode => fs.fallocate req ino offset length mode

/-- Runs a sequence of dispatcher operations, keeping only the state. -/
def applyOps (fs : FS) : List Op → FS
  | [] => fs
  | op :: rest => applyOps (dispatch fs op).2 rest

/-!
Ingestion: the model of src/src/json.rs.
-/

/-- Models serde_json Value. Numbers are modelled as Int: no claim under
verification depends on the textual rendering of numbers. Object fields
are an association list in the order the parser surfaces them. -/
inductive Value where
  | null
  | bool (b : Bool)
  | num (n : Int)
  | str (s : String)
  | arr (elts : List Value)
  | obj (fields : List (String × Value))

mutual

/-- Models json.rs size: the number of AST nodes of a value. -/
def jsize : Value → Nat
  | .null => 1
  | .bool _ => 1
  | .num _ => 1
  | .str _ => 1
  | .arr vs => jsizeList vs + 1
  | .obj fvs => jsizeFields fvs + 1
termination_by structural v => v

/-- Sum of jsize over a list of values. -/
def jsizeList : List Value → Nat
  | [] => 0
  | v :: rest => jsize v + jsizeList rest
termination_by structural l => l

/-- Sum of jsize over the values of an association list. -/
def jsizeFields : List (String × Value) → Nat
  | [] => 0
  | (_, v) :: rest => jsize v + jsizeFields rest
termination_by structural l => l

end

/-- Models json.rs kind: objects and arrays are directories, all other
values regular files. -/
def jkind : Value → FileKind
  | .obj _ => .directory
  | .arr _ => .directory
  | _ => .regularFile

/-- UTF-8 byte representation of a string, as the Rust code sees String
and str contents once converted into a byte vector. -/
def utf8Bytes (s : String) : List Nat :=
  (s.data.flatMap String.utf8EncodeChar).map (fun b => b.toNat)

/-- Fuel-driven ceiling base-10 logarithm; the fuel is adequate from
padWidth because the argument strictly decreases while above 1. -/
def padWidthGo : Nat → Nat → Nat
  | 0, _ => 0
  | fuel + 1, n => if n ≤ 1 then 0 else padWidthGo fuel ((n + 9) / 10) + 1

/-- Models the List-directory name-width computation in json.rs, which is
written (num_elts as f64).log10().ceil() as usize, by its exact
mathematical value: the ceiling of the base-10 logarithm for counts of at
least 1, and 0 for a count of 0 (the saturating usize cast sends the
ceiling of negative infinity to 0). The theorem padWidth_eq_clog below
identifies it with Nat.clog 10. -/
def padWidth (n : Nat) : Nat := padWidthGo n n

/-- Models the zero-padded index formatting in json.rs: the decimal
representation, left-padded with zeros up to the width. -/
def padName (width i : Nat) : String :=
  let s := toString i
  String.mk (List.replicate (width - s.length) '0') ++ s

/-- Fuel-driven body of the collision loop of object ingestion in
json.rs: append an underscore to the name until it is not yet a key. The
fuel never runs out when it starts at one more than the number of keys,
because the candidate names strictly lengthen while every iteration needs
the current candidate to be one of the finitely many keys. -/
def uniqueNameGo (children : Children) : Nat → String → String
  | 0, s => s
  | fuel + 1, s =>
      if s ∈ children then uniqueNameGo children fuel (s.push '_') else s

/-- Models the collision loop of object ingestion in json.rs: append an
underscore to the normalized field name until it is not yet a key. -/
def uniqueName (children : Children) (s : String) : String :=
  uniqueNameGo children (children.keys.card + 1) s

/-- A work-stack item of the ingestion loop: parent inum, inum, value. -/
abbrev Work := Nat × Nat × Value

/-- Total number of AST nodes still to be processed on the work stack. -/
def workSum (wl : List Work) : Nat := (wl.map (fun w => jsize w.2.2)).sum

/-- Models the array arm of the ingestion loop in json.rs fs: walk the
elements with their indices, insert a child entry named by the (optionally
padded) index, and push the child with a freshly allocated inum. -/
def ingestArr (cfg : Config) (dirInum : Nat) (width : Nat) :
    List Value → Nat → Nat → Children → List Work → Children × List Work × Nat
  | [], _, nextId, children, wl => (children, wl, nextId)
  | v :: rest, i, nextId, children, wl =>
      let name := if cfg.padElementNames then padName width i else toString i
      ingestArr cfg dirInum width rest (i + 1) (nextId + 1)
        (children.insert name ⟨jkind v, nextId⟩) ((dirInum, nextId, v) :: wl)

/-- Models the object arm of the ingestion loop in json.rs fs: normalize
each field name, resolve collisions with the underscore loop, insert the
child entry, and push the child with a freshly allocated inum. -/
def ingestObj (cfg : Config) (dirInum : Nat) :
    List (String × Value) → Nat → Children → List Work → Children × List Work × Nat
  | [], nextId, children, wl => (children, wl, nextId)
  | (field, v) :: rest, nextId, children, wl =>
      let nfield := uniqueName children (cfg.normalizeName field)
      ingestObj cfg dirInum rest (nextId + 1)
        (children.insert nfield ⟨jkind v, nextId⟩) ((dirInum, nextId, v) :: wl)

/-- The evolving state of the ingestion loop: the preallocated inode table
being filled in, and the next inum to hand out. -/
structure IngestSt where
  inodes : List (Option Inode)
  nextId : Nat

/-- Fuel-driven body of the worklist loop of json.rs fs. The Rust
worklist is a Vec used as a stack; the list head is the top of the stack.
One unit of fuel is one loop iteration (one pop); the fuel supplied by
ingestLoop is exactly the number of iterations the Rust loop performs, so
the fuel-exhausted arm is never taken on the supplied fuel. -/
def ingestLoopGo (cfg : Config) : Nat → List Work → IngestSt → IngestSt
  | 0, _, st => st
  | _ + 1, [], st => st
  | fuel + 1, (parent, inum, v) :: rest, st =>
    let nl := if cfg.addNewlines then "\n" else ""
    match v with
    | .null =>
        ingestLoopGo cfg fuel rest
          ⟨st.inodes.set inum (some ⟨parent, inum, .file (utf8Bytes nl)⟩), st.nextId⟩
    | .bool b =>
        ingestLoopGo cfg fuel rest
          ⟨st.inodes.set inum (some ⟨parent, inum, .file (utf8Bytes (toString b ++ nl))⟩), st.nextId⟩
    | .num n =>
        ingestLoopGo cfg fuel rest
          ⟨st.inodes.set inum (some ⟨parent, inum, .file (utf8Bytes (toString n ++ nl))⟩), st.nextId⟩
    | .str s =>
        let contents := if s.endsWith "\n" then s else s ++ nl
        ingestLoopGo cfg fuel rest
          ⟨st.inodes.set inum (some ⟨parent, inum, .file (utf8Bytes contents)⟩), st.nextId⟩
    | .arr vs =>
        let res := ingestArr cfg inum (padWidth vs.length) vs 0 st.nextId ∅ rest
        ingestLoopGo cfg fuel res.2.1
          ⟨st.inodes.set inum (some ⟨parent, inum, .directory .list res.1⟩), res.2.2⟩
    | .obj fvs =>
        let res := ingestObj cfg inum fvs st.nextId ∅ rest
        ingestLoopGo cfg fuel res.2.1
          ⟨st.inodes.set inum (some ⟨parent, inum, .directory .named res.1⟩), res.2.2⟩

/-- Models the worklist loop of json.rs fs: each pop processes one AST
node and pushes that node's children, so the loop runs for exactly the
total node count of the stack, which is the fuel supplied here. -/
def ingestLoop (cfg : Config) (wl : List Work) (st : IngestSt) : IngestSt :=
  ingestLoopGo cfg (workSum wl) wl st

namespace Json

/-- Models json.rs fs: preallocate jsize of the root plus one slots (slot
0 unused), seed the work stack with the root at inum 1 (FUSE_ROOT_ID), and
run the loop. The none result models the panic on a primitive root. -/
def fsIngest (cfg : Config) (v : Value) : Option IngestSt :=
  match v with
  | .arr _ => some (ingestLoop cfg [(1, 1, v)] ⟨List.replicate (jsize v + 1) none, 2⟩)
  | .obj _ => some (ingestLoop cfg [(1, 1, v)] ⟨List.replicate (jsize v + 1) none, 2⟩)
  | _ => none

/-- Models json.rs fs as the FS value it returns. -/
def fs (cfg : Config) (v : Value) : Option FS :=
  match fsIngest cfg v with
  | some st => some ⟨st.inodes, cfg⟩
  | none => none

end Json

/-- The induction invariant of the ingestion loop, over the preallocated
table length L, the current work stack and the current state: the table
keeps its length, slot 0 stays unused, the next inum accounts exactly for
the work left, work items carry distinct fresh inums whose slots are still
empty, live slots store their own index and sit below the next inum, every
directory entry of a live slot points either to a live slot with the right
parent and kind or to a pending work item of the holding directory with
the right kind, no two entries share a target, every inum below the next
one is live or pending, and slots at or above the next inum are empty. -/
structure LoopInv (L : Nat) (wl : List Work) (st : IngestSt) : Prop where
  len : st.inodes.length = L
  slot0 : st.inodes[0]? = some none
  count : st.nextId + workSum wl = L + wl.length
  nextPos : 1 ≤ st.nextId
  nodup : (wl.map (fun w => w.2.1)).Nodup
  wlRange : ∀ w ∈ wl, 1 ≤ w.2.1 ∧ w.2.1 < st.nextId ∧ st.inodes[w.2.1]? = some none
  inumOK : ∀ j i, st.inodes[j]? = some (some i) → i.inum = j ∧ 1 ≤ j ∧ j < st.nextId
  entriesOK : ∀ j i dt f n de, st.inodes[j]? = some (some i) →
    i.entry = .directory dt f → f.lookup n = some de →
    1 ≤ de.inum ∧ de.inum < st.nextId ∧
    ((∃ c, st.inodes[de.inum]? = some (some c) ∧ c.parent = j ∧ c.entry.kind = de.kind) ∨
     (∃ v, (j, de.inum, v) ∈ wl ∧ jkind v = de.kind))
  uniq : ∀ (j1 : Nat) (i1 : Inode) (dt1 : DirType) (f1 : Children) (n1 : String)
    (de1 : DirEntry) (j2 : Nat) (i2 : Inode) (dt2 : DirType) (f2 : Children)
    (n2 : String) (de2 : DirEntry),
    st.inodes[j1]? = some (some i1) → i1.entry = .directory dt1 f1 →
    f1.lookup n1 = some de1 →
    st.inodes[j2]? = some (some i2) → i2.entry = .directory dt2 f2 →
    f2.lookup n2 = some de2 →
    de1.inum = de2.inum → j1 = j2 ∧ n1 = n2
  filled : ∀ j, 1 ≤ j → j < st.nextId →
    (∃ i, st.inodes[j]? = some (some i)) ∨ ∃ w ∈ wl, w.2.1 = j
  fresh : ∀ j, st.nextId ≤ j → j < L → st.inodes[j]? = some none

/-!
Concrete fixtures used by witnesses and counterexamples, and the invariant
predicates the claims quantify over.
-/

/-- A sample mount configuration: owner uid/gid 1000, default modes,
newlines appended, element names padded, identity normalization. -/
def cfg0 : Config :=
  { uid := 1000, gid := 1000, timestamp := 0, filemode := 0o644, dirmode := 0o755,
    addNewlines := true, padElementNames := true, normalizeName := id }

/-- A request from the mount owner. -/
def reqOwner : Request := ⟨1000, 1000⟩

/-- A request from a caller other than the mount owner (and not root). -/
def reqOther : Request := ⟨4321, 4321⟩

/-- Child map of the sample root: one regular file named a at inum 2. -/
def childrenA : Children := (∅ : Children).insert "a" ⟨.regularFile, 2⟩

/-- Sample state: root directory holding one regular file a = inum 2. -/
def stA : FS :=
  ⟨[none, some ⟨1, 1, .directory .named childrenA⟩, some ⟨1, 2, .file (utf8Bytes "1\n")⟩], cfg0⟩

/-- Child map of a root holding one subdirectory d at inum 2. -/
def childrenRootD : Children := (∅ : Children).insert "d" ⟨.directory, 2⟩

/-- Child map of the subdirectory d: one regular file x at inum 3. -/
def childrenDX : Children := (∅ : Children).insert "x" ⟨.regularFile, 3⟩

/-- Sample state: root directory holding a non-empty subdirectory d. -/
def stD : FS :=
  ⟨[none, some ⟨1, 1, .directory .named childrenRootD⟩,
    some ⟨1, 2, .directory .named childrenDX⟩, some ⟨2, 3, .file []⟩], cfg0⟩

/-- A 100-element array of nulls, the array-length-100 instance named by
claim C9. -/
def v100 : Value := .arr (List.replicate 100 .null)

/-- The JSON value [null], the ingestion input of the C1 witness. -/
def vW : Value := .arr [.null]

/-- Child map produced for the root of vW: element 0 at inode 2. -/
def childrenW : Children := (∅ : Children).insert "0" ⟨.regularFile, 2⟩

/-- The filesystem ingested from vW under cfg0. -/
def stW : FS :=
  ⟨[none, some ⟨1, 1, .directory .list childrenW⟩, some ⟨1, 2, .file (utf8Bytes "\n")⟩], cfg0⟩

/-- One successful dispatcher operation: mknod of a regular file b. -/
def opsW : List Op := [.mknod reqOwner 1 "b" 0o100000]

/-- Root child map after opsW: element 0 plus the new file b at inode 3. -/
def chW : Children := childrenW.insert "b" ⟨.regularFile, 3⟩

/-- The root inode after opsW. -/
def PW : Inode := ⟨1, 1, .directory .list chW⟩

/-- The ingestion state of the array [] under cfg0 (the getD fallback is
never taken: fsIngest is some on arrays). -/
def stI : IngestSt := (Json.fsIngest cfg0 (.arr [])).getD ⟨[], 0⟩

/-- The directory-entry invariant for one entry: the referenced inode is
live, its parent field is the holding directory, and its kind agrees with
the entry's recorded kind. -/
def ChildOK (fs : FS) (holder : Nat) (de : DirEntry) : Prop :=
  ∃ c, fs.get de.inum = .ok c ∧ c.parent = holder ∧ c.entry.kind = de.kind

/-- The per-slot invariant: a live inode stores its own index as inum, and
if it is a directory every child entry satisfies ChildOK. -/
def SlotOK (fs : FS) (j : Nat) : Prop :=
  ∀ ind, fs.inodes[j]? = some (some ind) →
    ind.inum = j ∧
    ∀ dt files, ind.entry = .directory dt files →
      ∀ name de, files.lookup name = some de → ChildOK fs j de

/-- The table-wide directory-entry invariant (spec section 3, invariant 2). -/
def EntryInv (fs : FS) : Prop := ∀ j, SlotOK fs j

/-- Every inum is referenced by at most one directory entry. Reachable
states have this, and it is needed for the entry invariant to survive
rename's parent-pointer rewrite. -/
def UniqueRefs (fs : FS) : Prop :=
  ∀ (j1 : Nat) (i1 : Inode) (dt1 : DirType) (f1 : Children) (n1 : String) (de1 : DirEntry)
    (j2 : Nat) (i2 : Inode) (dt2 : DirType) (f2 : Children) (n2 : String) (de2 : DirEntry),
    fs.inodes[j1]? = some (some i1) → i1.entry = .directory dt1 f1 →
    f1.lookup n1 = some de1 →
    fs.inodes[j2]? = some (some i2) → i2.entry = .directory dt2 f2 →
    f2.lookup n2 = some de2 →
    de1.inum = de2.inum → j1 = j2 ∧ n1 = n2

/-- The combined state invariant preserved by every dispatcher operation. -/
def StateInv (fs : FS) : Prop := EntryInv fs ∧ UniqueRefs fs

/-!
Helper lemmas.
-/

theorem workSum_cons (w : Work) (wl : List Work) :
    workSum (w :: wl) = jsize w.2.2 + workSum wl := by
  simp [workSum]

theorem jsize_pos (v : Value) : 1 ≤ jsize v := by
  cases v <;> simp [jsize]

theorem workSum_ingestArr (cfg : Config) (dirInum width : Nat) :
    ∀ (vs : List Value) (i nextId : Nat) (children : Children) (wl : List Work),
      workSum (ingestArr cfg dirInum width vs i nextId children wl).2.1 =
        jsizeList vs + workSum wl
  | [], _, _, _, _ => by simp [ingestArr, jsizeList]
  | v :: rest, i, nextId, children, wl => by
      have ih := workSum_ingestArr cfg dirInum width rest (i + 1) (nextId + 1)
        (children.insert (if cfg.padElementNames then padName width i else toString i)
          ⟨jkind v, nextId⟩) ((dirInum, nextId, v) :: wl)
      simp only [ingestArr, ih, workSum_cons, jsizeList]
      omega

theorem workSum_ingestObj (cfg : Config) (dirInum : Nat) :
    ∀ (fvs : List (String × Value)) (nextId : Nat) (children : Children) (wl : List Work),
      workSum (ingestObj cfg dirInum fvs nextId children wl).2.1 =
        jsizeFields fvs + workSum wl
  | [], _, _, _ => by simp [ingestObj, jsizeFields]
  | (field, v) :: rest, nextId, children, wl => by
      have ih := workSum_ingestObj cfg dirInum rest (nextId + 1)
        (children.insert (uniqueName children (cfg.normalizeName field))
          ⟨jkind v, nextId⟩) ((dirInum, nextId, v) :: wl)
      simp only [ingestObj, ih, workSum_cons, jsizeFields]
      omega

theorem padWidthGo_eq_clog : ∀ fuel n, n ≤ fuel → padWidthGo fuel n = Nat.clog 10 n
  | 0, n, h => by
      have hn : n = 0 := by omega
      subst hn
      simp [padWidthGo]
  | fuel + 1, n, h => by
      by_cases hn : n ≤ 1
      · simp [padWidthGo, hn, Nat.clog_of_right_le_one hn]
      · have hdiv : (n + 9) / 10 < n := by omega
        have hlt : (n + 9) / 10 ≤ fuel := by omega
        conv_rhs => rw [Nat.clog_of_two_le (by norm_num) (by omega : 2 ≤ n)]
        rw [padWidthGo, if_neg hn, padWidthGo_eq_clog fuel ((n + 9) / 10) hlt]
        norm_num

/-- padWidth computes the ceiling base-10 logarithm. -/
theorem padWidth_eq_clog (n : Nat) : padWidth n = Nat.clog 10 n :=
  padWidthGo_eq_clog n n le_rfl

theorem FS.get_ok_iff {fs : FS} {j : Nat} {i : Inode} :
    fs.get j = .ok i ↔ fs.inodes[j]? = some (some i) := by
  unfold FS.get
  split
  · constructor
    · intro h; cases h
    · intro h
      rw [List.getElem?_eq_none (by omega)] at h
      cases h
  · split
    · next heq =>
      constructor
      · intro h; cases h; exact heq
      · intro h; rw [heq] at h; cases h; rfl
    · next hne =>
      constructor
      · intro h; cases h
      · intro h; exact (hne i h).elim

theorem List.set_getElem?_self {α : Type} {l : List α} {n : Nat} {a : α}
    (h : l[n]? = some a) : l.set n a = l := by
  apply List.ext_getElem?
  intro m
  by_cases hm : n = m
  · subst hm
    rw [List.getElem?_set_self', h]
    rfl
  · rw [List.getElem?_set_ne hm]

theorem Children.insert_erase_self {m : Children} {k : String} {v : DirEntry}
    (h : m.lookup k = some v) : (m.erase k).insert k v = m := by
  apply Finmap.ext_lookup
  intro x
  by_cases hx : x = k
  · subst hx
    rw [Finmap.lookup_insert, h]
  · rw [Finmap.lookup_insert_of_ne _ hx, Finmap.lookup_erase_ne hx]

/-!
Claim C2: read past end-of-file.
-/

/-- C2: evaluation at the failing input. On the regular file at inum 2 of
stA, whose contents are the 2 bytes of the string 1 plus newline, a read at
offset 3 — past end-of-file — hits the out-of-bounds slice and panics
instead of replying an empty slice; a read at offset 2, exactly
end-of-file, does reply the empty slice. -/
theorem c2_read_past_eof_panics :
    FS.read stA 2 3 = .panicked ∧ FS.read stA 2 2 = .data [] := by decide

/-!
Claim C4: access with mask F_OK.
-/

/-- C4 counterexample: access with mask F_OK (0) replies ok even for inode
999, which does not exist in stA (its table has length 3), refuting the
claimed equivalence between an ok reply and existence. -/
theorem c4_counterexample :
    FS.access stA reqOwner 999 0 = .ok ∧
    FS.get stA 999 = .error (.noSuchInode 999) := by decide

/-- C4 amended: access with mask == F_OK replies ok unconditionally,
before looking the inode up, so existence is not checked; for any other
mask, a nonexistent inode replies ENOENT. -/
theorem c4_access_fok_unconditional (fs : FS) (req : Request) (ino mask : Nat) :
    fs.access req ino 0 = .ok ∧
    (mask ≠ 0 → (∃ e, fs.get ino = .error e) →
      fs.access req ino mask = .error .ENOENT) := by
  constructor
  · simp [FS.access]
  · intro hm he
    obtain ⟨e, he⟩ := he
    simp [FS.access, hm, he]

/-- C4 witness: the amended theorem instantiated at stA and inode 999. -/
theorem c4_witness :
    FS.access stA reqOwner 999 0 = .ok ∧
    FS.access stA reqOwner 999 1 = .error .ENOENT :=
  ⟨(c4_access_fok_unconditional stA reqOwner 999 1).1,
   (c4_access_fok_unconditional stA reqOwner 999 1).2 (by decide)
     ⟨.noSuchInode 999, by decide⟩⟩

/-!
Claim C6: rename dot-name validation.
-/

/-- C6 counterexample: a rename whose new name is the dot name is not
rejected: on stA, renaming a to the name dot proceeds and replies ok, not
EINVAL, refuting the claim for the new-name half. -/
theorem c6_counterexample : (FS.rename stA reqOwner 1 "a" 1 ".").1 = .ok := by
  decide

/-- C6 amended: for a rename request from the owner, a source name equal
to dot or dot-dot replies EINVAL and leaves the table unchanged; the new
name is never compared against the dot names. -/
theorem c6_src_dot_einval (fs : FS) (req : Request) (parent newparent : Nat)
    (name newname : String) (hacc : fs.checkAccess req = true)
    (h : name = "." ∨ name = "..") :
    fs.rename req parent name newparent newname = (.error .EINVAL, fs) := by
  rcases h with h | h <;> subst h <;> simp [FS.rename, hacc]

/-- C6 witness: the amended theorem instantiated at stA with source dot. -/
theorem c6_witness : FS.rename stA reqOwner 1 "." 1 "x" = (.error .EINVAL, stA) :=
  c6_src_dot_einval stA reqOwner 1 1 "." "x" (by decide) (Or.inl rfl)

/-!
Claim C10: fallocate argument checks run before the access check.
-/

/-- C10: fallocate replies EINVAL on a negative offset or nonpositive
length and EOPNOTSUPP on a nonzero mode with in-range arguments, in both
cases before the access check, so for every caller identity, and with the
table unchanged. -/
theorem c10_fallocate_args_before_access (fs : FS) (req : Request) (ino : Nat)
    (offset length mode : Int) :
    ((offset < 0 ∨ length ≤ 0) →
        fs.fallocate req ino offset length mode = (.error .EINVAL, fs)) ∧
    (0 ≤ offset → 0 < length → mode ≠ 0 →
        fs.fallocate req ino offset length mode = (.error .EOPNOTSUPP, fs)) := by
  constructor
  · intro h
    unfold FS.fallocate
    rw [if_pos h]
  · intro h1 h2 h3
    unfold FS.fallocate
    rw [if_neg (by omega), if_pos h3]

/-- C10 witness: both branches instantiated with a caller whose uid is not
the configured owner, showing the argument checks win over EACCES. -/
theorem c10_witness :
    FS.fallocate stA reqOther 2 (-1) 5 0 = (.error .EINVAL, stA) ∧
    FS.fallocate stA reqOther 2 0 5 1 = (.error .EOPNOTSUPP, stA) :=
  ⟨(c10_fallocate_args_before_access stA reqOther 2 (-1) 5 0).1 (by decide),
   (c10_fallocate_args_before_access stA reqOther 2 0 5 1).2 (by decide) (by decide)
     (by decide)⟩

/-!
Claim C8: attribute synthesis.
-/

/-- C8: for every live inode, attr reports the stored inum as ino; the
size is the byte length for files, the summed child-name byte lengths for
Named directories, and the child count for List directories; and nlink is
1 for files and 2 plus the number of subdirectory children for
directories. -/
theorem c8_attr_fields (fs : FS) (ino : Nat) (i : Inode)
    (h : fs.get ino = .ok i) :
    (fs.attr i).ino = i.inum ∧
    (∀ contents, i.entry = .file contents →
      (fs.attr i).size = contents.length ∧ (fs.attr i).nlink = 1) ∧
    (∀ files, i.entry = .directory .named files →
      (fs.attr i).size = (files.entries.map (fun e => e.1.utf8ByteSize)).sum) ∧
    (∀ files, i.entry = .directory .list files →
      (fs.attr i).size = files.entries.card) ∧
    (∀ dt files, i.entry = .directory dt files →
      (fs.attr i).nlink =
        2 + (files.entries.filter (fun e => e.2.kind = .directory)).card) := by
  obtain ⟨p, n, e⟩ := i
  refine ⟨rfl, ?_, ?_, ?_, ?_⟩
  · intro contents he
    cases he
    exact ⟨rfl, rfl⟩
  · intro files he
    cases he
    rfl
  · intro files he
    cases he
    rfl
  · intro dt files he
    cases he
    rfl

/-- C8 witness: the theorem instantiated at the two live inodes of stA:
the Named root directory (inum 1) and the file at inum 2. -/
theorem c8_witness :
    (FS.attr stA ⟨1, 1, .directory .named childrenA⟩).ino = 1 ∧
    (FS.attr stA ⟨1, 2, .file (utf8Bytes "1\n")⟩).size = (utf8Bytes "1\n").length ∧
    (FS.attr stA ⟨1, 2, .file (utf8Bytes "1\n")⟩).nlink = 1 ∧
    (FS.attr stA ⟨1, 1, .directory .named childrenA⟩).size =
      (childrenA.entries.map (fun e => e.1.utf8ByteSize)).sum ∧
    (FS.attr stA ⟨1, 1, .directory .named childrenA⟩).nlink =
      2 + (childrenA.entries.filter (fun e => e.2.kind = .directory)).card :=
  ⟨(c8_attr_fields stA 1 ⟨1, 1, .directory .named childrenA⟩ (by decide)).1,
   ((c8_attr_fields stA 2 ⟨1, 2, .file (utf8Bytes "1\n")⟩ (by decide)).2.1
      (utf8Bytes "1\n") rfl).1,
   ((c8_attr_fields stA 2 ⟨1, 2, .file (utf8Bytes "1\n")⟩ (by decide)).2.1
      (utf8Bytes "1\n") rfl).2,
   (c8_attr_fields stA 1 ⟨1, 1, .directory .named childrenA⟩ (by decide)).2.2.1
      childrenA rfl,
   (c8_attr_fields stA 1 ⟨1, 1, .directory .named childrenA⟩ (by decide)).2.2.2.2
      .named childrenA rfl⟩

/-!
Claim C7: errno replies leave the table unchanged.
-/

/-- C7: atomicity of errno replies: whenever a dispatcher operation
replies with an errno, the table it leaves behind is exactly the table it
started from; state changes happen only behind ok, entry or written
replies (a panic never replies at all). -/
theorem c7_errno_atomicity (fs : FS) (op : Op) (e : Errno)
    (h : (dispatch fs op).1 = .error e) : (dispatch fs op).2 = fs := by
  cases op with
  | access _ _ _ => rfl
  | lookup _ _ _ => rfl
  | getattr _ _ => rfl
  | read _ _ _ => rfl
  | readdir _ _ => rfl
  | mknod req parent name mode =>
      revert h
      simp only [dispatch]
      unfold FS.mknod
      dsimp only
      repeat' split
      all_goals intro h
      all_goals first | rfl | simp at h
  | mkdir req parent name =>
      revert h
      simp only [dispatch]
      unfold FS.mkdir
      dsimp only
      repeat' split
      all_goals intro h
      all_goals first | rfl | simp at h
  | write req ino offset data =>
      revert h
      simp only [dispatch]
      unfold FS.write
      dsimp only
      repeat' split
      all_goals intro h
      all_goals first | rfl | simp at h
  | unlink req parent name =>
      revert h
      simp only [dispatch]
      unfold FS.unlink
      dsimp only
      repeat' split
      all_goals intro h
      all_goals first | rfl | simp at h
  | rmdir req parent name =>
      revert h
      simp only [dispatch]
      unfold FS.rmdir
      dsimp only
      repeat' split
      all_goals intro h
      all_goals first | rfl | simp at h
  | rename req parent name newparent newname =>
      revert h
      simp only [dispatch]
      unfold FS.rename
      dsimp only
      repeat' split
      all_goals intro h
      all_goals first | rfl | simp at h
  | fallocate req ino offset length mode =>
      revert h
      simp only [dispatch]
      unfold FS.fallocate
      dsimp only
      repeat' split
      all_goals intro h
      all_goals first | rfl | simp at h

/-- C7 witness: a mknod from a non-owner caller replies EACCES and the
theorem yields that the state is unchanged. -/
theorem c7_witness :
    (dispatch stA (.mknod reqOther 1 "z" 0o100000)).2 = stA :=
  c7_errno_atomicity stA (.mknod reqOther 1 "z" 0o100000) .EACCES (by decide)

/-!
Claim C5: rename of an entry onto itself.
-/

/-- C5 counterexample: renaming the non-empty directory d onto itself in
the same parent, issued by the owner, replies ENOTEMPTY rather than ok:
the target resolves to the source itself, which is a non-empty directory,
and the emptiness check fires before the claim's no-op can happen. -/
theorem c5_counterexample :
    (FS.rename stD reqOwner 1 "d" 1 "d").1 = .error .ENOTEMPTY := by decide

/-- C5 amended: renaming an entry onto itself in the same directory, from
the owner, replies ok and leaves the state exactly unchanged when the
entry is a regular file or an empty directory, and replies ENOTEMPTY
(still changing nothing) when the entry is a non-empty directory. The
hypotheses are the standing invariants for the entry: a live target inode
pointing back to the parent with the recorded kind, and a name that is
not a dot name. -/
theorem c5_rename_self (fs : FS) (req : Request) (parent : Nat) (name : String)
    (pI : Inode) (dt : DirType) (files : Children) (de : DirEntry) (c : Inode)
    (hacc : fs.checkAccess req = true)
    (h1 : name ≠ ".") (h2 : name ≠ "..")
    (hp : fs.get parent = .ok pI) (hpe : pI.entry = .directory dt files)
    (hlook : files.lookup name = some de)
    (hc : fs.get de.inum = .ok c) (hcp : c.parent = parent)
    (hck : c.entry.kind = de.kind) :
    (∀ dt2 ch, c.entry = .directory dt2 ch → ch ≠ ∅ →
        fs.rename req parent name parent name = (.error .ENOTEMPTY, fs)) ∧
    ((∀ dt2 ch, c.entry = .directory dt2 ch → ch = ∅) →
        fs.rename req parent name parent name = (.ok, fs)) := by
  obtain ⟨pp, pn, pe⟩ := pI
  dsimp only at hpe
  subst hpe
  have hpget := FS.get_ok_iff.mp hp
  have hcget := FS.get_ok_iff.mp hc
  obtain ⟨dk, di⟩ := de
  obtain ⟨cp, cn, ce⟩ := c
  dsimp only at hcp hck hc hcget hlook
  subst hcp
  constructor
  · intro dt2 ch hce hne
    dsimp only at hce
    subst hce
    simp only [Entry.kind] at hck
    subst hck
    unfold FS.rename
    rw [if_neg (by simp [hacc]), if_neg (by simp [h1, h2]), hp]
    dsimp only
    rw [hlook]
    dsimp only
    rw [if_neg (by simp)]
    dsimp only
    rw [hc]
    dsimp only
    rw [if_pos hne]
  · intro hemp
    unfold FS.rename
    rw [if_neg (by simp [hacc]), if_neg (by simp [h1, h2]), hp]
    dsimp only
    rw [hlook]
    dsimp only
    rw [if_neg (by simp)]
    dsimp only
    cases ce with
    | file contents =>
        simp only [Entry.kind] at hck
        subst hck
        dsimp only
        unfold FS.modifyChildren
        rw [hpget]
        dsimp only
        have hset : (fs.inodes.set cp
            (some ⟨pp, pn, Entry.directory dt (files.erase name)⟩))[cp]? =
            some (some ⟨pp, pn, Entry.directory dt (files.erase name)⟩) := by
          rw [List.getElem?_set_self', hpget]
          rfl
        rw [hset]
        dsimp only
        rw [Children.insert_erase_self hlook]
        rw [List.set_set, List.set_getElem?_self hpget]
        rw [hcget]
        dsimp only
        rw [List.set_getElem?_self hcget]
    | directory dt2 ch =>
        have hch := hemp dt2 ch rfl
        subst hch
        simp only [Entry.kind] at hck
        subst hck
        dsimp only
        rw [hc]
        dsimp only
        rw [if_neg (by simp)]
        dsimp only
        unfold FS.modifyChildren
        rw [hpget]
        dsimp only
        have hset : (fs.inodes.set cp
            (some ⟨pp, pn, Entry.directory dt (files.erase name)⟩))[cp]? =
            some (some ⟨pp, pn, Entry.directory dt (files.erase name)⟩) := by
          rw [List.getElem?_set_self', hpget]
          rfl
        rw [hset]
        dsimp only
        rw [Children.insert_erase_self hlook]
        rw [List.set_set, List.set_getElem?_self hpget]
        rw [hcget]
        dsimp only
        rw [List.set_getElem?_self hcget]

/-- C5 witness: both halves of the amended theorem instantiated: the
self-rename of the file a in stA is a no-op replying ok, and the
self-rename of the non-empty directory d in stD replies ENOTEMPTY with
the state unchanged. -/
theorem c5_witness :
    FS.rename stA reqOwner 1 "a" 1 "a" = (.ok, stA) ∧
    FS.rename stD reqOwner 1 "d" 1 "d" = (.error .ENOTEMPTY, stD) :=
  ⟨(c5_rename_self stA reqOwner 1 "a" ⟨1, 1, .directory .named childrenA⟩ .named
      childrenA ⟨.regularFile, 2⟩ ⟨1, 2, .file (utf8Bytes "1\n")⟩
      (by decide) (by decide) (by decide) (by decide) rfl (by decide) (by decide)
      rfl rfl).2 (fun dt2 ch h => nomatch h),
   (c5_rename_self stD reqOwner 1 "d" ⟨1, 1, .directory .named childrenRootD⟩ .named
      childrenRootD ⟨.directory, 2⟩ ⟨1, 2, .directory .named childrenDX⟩
      (by decide) (by decide) (by decide) (by decide) rfl (by decide) (by decide)
      rfl rfl).1 .named childrenDX rfl (by decide)⟩

/-!
Claim C9: zero-padded List-directory names.
-/

set_option maxRecDepth 100000 in
/-- C9 counterexample: ingesting the 100-element array with
pad_element_names set produces child names of width 2, not the claimed 3:
the root List directory of the ingested filesystem has no child named 000,
and its first child is named 00. -/
theorem c9_counterexample :
    ∃ st, Json.fs cfg0 v100 = some st ∧
      ∃ ind, st.inodes[1]? = some (some ind) ∧
        ∃ ch, ind.entry = .directory .list ch ∧
          ch.lookup "000" = none ∧ ch.lookup "00" = some ⟨.regularFile, 2⟩ := by
  refine ⟨_, rfl, _, rfl, _, rfl, ?_, ?_⟩ <;> decide

set_option maxRecDepth 100000 in
/-- C9 amended: the padding width for an array of length N is the exact
ceiling of log10 N, which for N = 100 is 2, not 3; ingesting the
100-element array yields child names starting 00 and 01, bound to the
first two freshly allocated inums 2 and 3. -/
theorem c9_pad_width :
    (∀ n, padWidth n = Nat.clog 10 n) ∧ padWidth 100 = 2 ∧
    (∃ st, Json.fs cfg0 v100 = some st ∧
      ∃ ind, st.inodes[1]? = some (some ind) ∧
        ∃ ch, ind.entry = .directory .list ch ∧
          ch.lookup "00" = some ⟨.regularFile, 2⟩ ∧
          ch.lookup "01" = some ⟨.regularFile, 3⟩) := by
  refine ⟨padWidth_eq_clog, by decide, _, rfl, _, rfl, _, rfl, ?_, ?_⟩ <;> decide

theorem ingestArr_nextId (cfg : Config) (dirInum width : Nat) :
    ∀ (vs : List Value) (i n0 : Nat) (ch : Children) (wl : List Work),
      (ingestArr cfg dirInum width vs i n0 ch wl).2.2 = n0 + vs.length
  | [], _, _, _, _ => by simp [ingestArr]
  | v :: rest, i, n0, ch, wl => by
      simp only [ingestArr, ingestArr_nextId cfg dirInum width rest (i + 1) (n0 + 1),
        List.length_cons]
      omega

theorem ingestArr_wl_length (cfg : Config) (dirInum width : Nat) :
    ∀ (vs : List Value) (i n0 : Nat) (ch : Children) (wl : List Work),
      (ingestArr cfg dirInum width vs i n0 ch wl).2.1.length = vs.length + wl.length
  | [], _, _, _, _ => by simp [ingestArr]
  | v :: rest, i, n0, ch, wl => by
      simp only [ingestArr, ingestArr_wl_length cfg dirInum width rest (i + 1) (n0 + 1),
        List.length_cons]
      omega

theorem ingestArr_mem_of (cfg : Config) (dirInum width : Nat) :
    ∀ (vs : List Value) (i n0 : Nat) (ch : Children) (wl : List Work),
      ∀ w ∈ wl, w ∈ (ingestArr cfg dirInum width vs i n0 ch wl).2.1
  | [], _, _, _, _ => by simp [ingestArr]
  | v :: rest, i, n0, ch, wl => by
      intro w hw
      exact ingestArr_mem_of cfg dirInum width rest (i + 1) (n0 + 1) _ _ w (by simp [hw])

theorem ingestArr_mem (cfg : Config) (dirInum width : Nat) :
    ∀ (vs : List Value) (i n0 : Nat) (ch : Children) (wl : List Work),
      ∀ w ∈ (ingestArr cfg dirInum width vs i n0 ch wl).2.1,
        w ∈ wl ∨ (w.1 = dirInum ∧ n0 ≤ w.2.1 ∧ w.2.1 < n0 + vs.length)
  | [], _, _, _, _ => by intro w hw; exact Or.inl hw
  | v :: rest, i, n0, ch, wl => by
      intro w hw
      rcases ingestArr_mem cfg dirInum width rest (i + 1) (n0 + 1) _ _ w hw with h | h
      · rcases List.mem_cons.mp h with h | h
        · subst h
          exact Or.inr ⟨rfl, le_refl _, by simp⟩
        · exact Or.inl h
      · right
        refine ⟨h.1, by omega, ?_⟩
        have := h.2.2
        simp only [List.length_cons]
        omega

theorem ingestArr_cover (cfg : Config) (dirInum width : Nat) :
    ∀ (vs : List Value) (i n0 : Nat) (ch : Children) (wl : List Work),
      ∀ k, n0 ≤ k → k < n0 + vs.length →
        ∃ w ∈ (ingestArr cfg dirInum width vs i n0 ch wl).2.1, w.2.1 = k
  | [], _, n0, _, _ => by
      intro k h1 h2
      simp at h2
      omega
  | v :: rest, i, n0, ch, wl => by
      intro k h1 h2
      by_cases hk : k = n0
      · exact ⟨(dirInum, n0, v),
          ingestArr_mem_of cfg dirInum width rest (i + 1) (n0 + 1) _ _ _ (by simp), hk.symm⟩
      · exact ingestArr_cover cfg dirInum width rest (i + 1) (n0 + 1) _ _ k (by omega)
          (by simp only [List.length_cons] at h2; omega)

theorem ingestArr_nodup (cfg : Config) (dirInum width : Nat) :
    ∀ (vs : List Value) (i n0 : Nat) (ch : Children) (wl : List Work),
      (∀ w ∈ wl, w.2.1 < n0) → (wl.map (fun w => w.2.1)).Nodup →
      ((ingestArr cfg dirInum width vs i n0 ch wl).2.1.map (fun w => w.2.1)).Nodup
  | [], _, _, _, _ => by intro _ h; exact h
  | v :: rest, i, n0, ch, wl => by
      intro hlt hnd
      refine ingestArr_nodup cfg dirInum width rest (i + 1) (n0 + 1) _ _ ?_ ?_
      · intro w hw
        rcases List.mem_cons.mp hw with h | h
        · subst h; simp
        · have := hlt w h; omega
      · simp only [List.map_cons, List.nodup_cons]
        refine ⟨?_, hnd⟩
        intro hmem
        rcases List.mem_map.mp hmem with ⟨w, hw, he⟩
        have := hlt w hw
        omega

theorem ingestArr_lookup (cfg : Config) (dirInum width lo : Nat) :
    ∀ (vs : List Value) (i n0 : Nat) (ch : Children) (wl : List Work),
      lo ≤ n0 → 1 ≤ lo →
      (∀ n de, ch.lookup n = some de →
        lo ≤ de.inum ∧ de.inum < n0 ∧
        ∃ v', (dirInum, de.inum, v') ∈ wl ∧ jkind v' = de.kind) →
      ∀ n de, (ingestArr cfg dirInum width vs i n0 ch wl).1.lookup n = some de →
        lo ≤ de.inum ∧
        de.inum < (ingestArr cfg dirInum width vs i n0 ch wl).2.2 ∧
        ∃ v', (dirInum, de.inum, v') ∈ (ingestArr cfg dirInum width vs i n0 ch wl).2.1 ∧
          jkind v' = de.kind
  | [], _, _, _, _ => by
      intro hlo h1 hch n de hl
      exact hch n de hl
  | v :: rest, i, n0, ch, wl => by
      intro hlo h1 hch n de hl
      refine ingestArr_lookup cfg dirInum width lo rest (i + 1) (n0 + 1) _ _
        (by omega) h1 ?_ n de hl
      intro n' de' hl'
      by_cases hn : n' = (if cfg.padElementNames then padName width i else toString i)
      · subst hn
        rw [Finmap.lookup_insert] at hl'
        cases hl'
        exact ⟨hlo, Nat.lt_succ_self n0, v, by simp, rfl⟩
      · rw [Finmap.lookup_insert_of_ne _ hn] at hl'
        obtain ⟨hb1, hb2, v', hv', hk⟩ := hch n' de' hl'
        exact ⟨hb1, by omega, v', by simp [hv'], hk⟩

theorem ingestArr_lookup_uniq (cfg : Config) (dirInum width : Nat) :
    ∀ (vs : List Value) (i n0 : Nat) (ch : Children) (wl : List Work),
      (∀ n de, ch.lookup n = some de → de.inum < n0) →
      (∀ n1 de1 n2 de2, ch.lookup n1 = some de1 → ch.lookup n2 = some de2 →
        de1.inum = de2.inum → n1 = n2) →
      ∀ n1 de1 n2 de2,
        (ingestArr cfg dirInum width vs i n0 ch wl).1.lookup n1 = some de1 →
        (ingestArr cfg dirInum width vs i n0 ch wl).1.lookup n2 = some de2 →
        de1.inum = de2.inum → n1 = n2
  | [], _, _, _, _ => by
      intro hlt hu n1 de1 n2 de2 h1 h2 he
      exact hu n1 de1 n2 de2 h1 h2 he
  | v :: rest, i, n0, ch, wl => by
      intro hlt hu
      refine ingestArr_lookup_uniq cfg dirInum width rest (i + 1) (n0 + 1) _ _ ?_ ?_
      · intro n de hl
        by_cases hn : n = (if cfg.padElementNames then padName width i else toString i)
        · subst hn
          rw [Finmap.lookup_insert] at hl
          cases hl
          exact Nat.lt_succ_self n0
        · rw [Finmap.lookup_insert_of_ne _ hn] at hl
          have := hlt n de hl
          omega
      · intro n1 de1 n2 de2 h1 h2 he
        by_cases hn1 : n1 = (if cfg.padElementNames then padName width i else toString i) <;>
          by_cases hn2 : n2 = (if cfg.padElementNames then padName width i else toString i)
        · rw [hn1, hn2]
        · subst hn1
          rw [Finmap.lookup_insert] at h1
          rw [Finmap.lookup_insert_of_ne _ hn2] at h2
          cases h1
          have := hlt n2 de2 h2
          simp at he
          omega
        · subst hn2
          rw [Finmap.lookup_insert] at h2
          rw [Finmap.lookup_insert_of_ne _ hn1] at h1
          cases h2
          have := hlt n1 de1 h1
          simp at he
          omega
        · rw [Finmap.lookup_insert_of_ne _ hn1] at h1
          rw [Finmap.lookup_insert_of_ne _ hn2] at h2
          exact hu n1 de1 n2 de2 h1 h2 he

theorem ingestObj_nextId (cfg : Config) (dirInum : Nat) :
    ∀ (fvs : List (String × Value)) (n0 : Nat) (ch : Children) (wl : List Work),
      (ingestObj cfg dirInum fvs n0 ch wl).2.2 = n0 + fvs.length
  | [], _, _, _ => by simp [ingestObj]
  | (field, v) :: rest, n0, ch, wl => by
      simp only [ingestObj, ingestObj_nextId cfg dirInum rest (n0 + 1), List.length_cons]
      omega

theorem ingestObj_wl_length (cfg : Config) (dirInum : Nat) :
    ∀ (fvs : List (String × Value)) (n0 : Nat) (ch : Children) (wl : List Work),
      (ingestObj cfg dirInum fvs n0 ch wl).2.1.length = fvs.length + wl.length
  | [], _, _, _ => by simp [ingestObj]
  | (field, v) :: rest, n0, ch, wl => by
      simp only [ingestObj, ingestObj_wl_length cfg dirInum rest (n0 + 1), List.length_cons]
      omega

theorem ingestObj_mem_of (cfg : Config) (dirInum : Nat) :
    ∀ (fvs : List (String × Value)) (n0 : Nat) (ch : Children) (wl : List Work),
      ∀ w ∈ wl, w ∈ (ingestObj cfg dirInum fvs n0 ch wl).2.1
  | [], _, _, _ => by simp [ingestObj]
  | (field, v) :: rest, n0, ch, wl => by
      intro w hw
      exact ingestObj_mem_of cfg dirInum rest (n0 + 1) _ _ w (by simp [hw])

theorem ingestObj_mem (cfg : Config) (dirInum : Nat) :
    ∀ (fvs : List (String × Value)) (n0 : Nat) (ch : Children) (wl : List Work),
      ∀ w ∈ (ingestObj cfg dirInum fvs n0 ch wl).2.1,
        w ∈ wl ∨ (w.1 = dirInum ∧ n0 ≤ w.2.1 ∧ w.2.1 < n0 + fvs.length)
  | [], _, _, _ => by intro w hw; exact Or.inl hw
  | (field, v) :: rest, n0, ch, wl => by
      intro w hw
      rcases ingestObj_mem cfg dirInum rest (n0 + 1) _ _ w hw with h | h
      · rcases List.mem_cons.mp h with h | h
        · subst h
          exact Or.inr ⟨rfl, le_refl _, by simp⟩
        · exact Or.inl h
      · right
        refine ⟨h.1, by omega, ?_⟩
        have := h.2.2
        simp only [List.length_cons]
        omega

theorem ingestObj_cover (cfg : Config) (dirInum : Nat) :
    ∀ (fvs : List (String × Value)) (n0 : Nat) (ch : Children) (wl : List Work),
      ∀ k, n0 ≤ k → k < n0 + fvs.length →
        ∃ w ∈ (ingestObj cfg dirInum fvs n0 ch wl).2.1, w.2.1 = k
  | [], _, _, _ => by
      intro k h1 h2
      simp at h2
      omega
  | (field, v) :: rest, n0, ch, wl => by
      intro k h1 h2
      by_cases hk : k = n0
      · exact ⟨(dirInum, n0, v),
          ingestObj_mem_of cfg dirInum rest (n0 + 1) _ _ _ (by simp), hk.symm⟩
      · exact ingestObj_cover cfg dirInum rest (n0 + 1) _ _ k (by omega)
          (by simp only [List.length_cons] at h2; omega)

theorem ingestObj_nodup (cfg : Config) (dirInum : Nat) :
    ∀ (fvs : List (String × Value)) (n0 : Nat) (ch : Children) (wl : List Work),
      (∀ w ∈ wl, w.2.1 < n0) → (wl.map (fun w => w.2.1)).Nodup →
      ((ingestObj cfg dirInum fvs n0 ch wl).2.1.map (fun w => w.2.1)).Nodup
  | [], _, _, _ => by intro _ h; exact h
  | (field, v) :: rest, n0, ch, wl => by
      intro hlt hnd
      refine ingestObj_nodup cfg dirInum rest (n0 + 1) _ _ ?_ ?_
      · intro w hw
        rcases List.mem_cons.mp hw with h | h
        · subst h; simp
        · have := hlt w h; omega
      · simp only [List.map_cons, List.nodup_cons]
        refine ⟨?_, hnd⟩
        intro hmem
        rcases List.mem_map.mp hmem with ⟨w, hw, he⟩
        have := hlt w hw
        omega

theorem ingestObj_lookup (cfg : Config) (dirInum lo : Nat) :
    ∀ (fvs : List (String × Value)) (n0 : Nat) (ch : Children) (wl : List Work),
      lo ≤ n0 → 1 ≤ lo →
      (∀ n de, ch.lookup n = some de →
        lo ≤ de.inum ∧ de.inum < n0 ∧
        ∃ v', (dirInum, de.inum, v') ∈ wl ∧ jkind v' = de.kind) →
      ∀ n de, (ingestObj cfg dirInum fvs n0 ch wl).1.lookup n = some de →
        lo ≤ de.inum ∧
        de.inum < (ingestObj cfg dirInum fvs n0 ch wl).2.2 ∧
        ∃ v', (dirInum, de.inum, v') ∈ (ingestObj cfg dirInum fvs n0 ch wl).2.1 ∧
          jkind v' = de.kind
  | [], _, _, _ => by
      intro hlo h1 hch n de hl
      exact hch n de hl
  | (field, v) :: rest, n0, ch, wl => by
      intro hlo h1 hch n de hl
      refine ingestObj_lookup cfg dirInum lo rest (n0 + 1) _ _ (by omega) h1 ?_ n de hl
      intro n' de' hl'
      by_cases hn : n' = uniqueName ch (cfg.normalizeName field)
      · subst hn
        rw [Finmap.lookup_insert] at hl'
        cases hl'
        exact ⟨hlo, Nat.lt_succ_self n0, v, by simp, rfl⟩
      · rw [Finmap.lookup_insert_of_ne _ hn] at hl'
        obtain ⟨hb1, hb2, v', hv', hk⟩ := hch n' de' hl'
        exact ⟨hb1, by omega, v', by simp [hv'], hk⟩

theorem ingestObj_lookup_uniq (cfg : Config) (dirInum : Nat) :
    ∀ (fvs : List (String × Value)) (n0 : Nat) (ch : Children) (wl : List Work),
      (∀ n de, ch.lookup n = some de → de.inum < n0) →
      (∀ n1 de1 n2 de2, ch.lookup n1 = some de1 → ch.lookup n2 = some de2 →
        de1.inum = de2.inum → n1 = n2) →
      ∀ n1 de1 n2 de2,
        (ingestObj cfg dirInum fvs n0 ch wl).1.lookup n1 = some de1 →
        (ingestObj cfg dirInum fvs n0 ch wl).1.lookup n2 = some de2 →
        de1.inum = de2.inum → n1 = n2
  | [], _, _, _ => by
      intro hlt hu n1 de1 n2 de2 h1 h2 he
      exact hu n1 de1 n2 de2 h1 h2 he
  | (field, v) :: rest, n0, ch, wl => by
      intro hlt hu
      refine ingestObj_lookup_uniq cfg dirInum rest (n0 + 1) _ _ ?_ ?_
      · intro n de hl
        by_cases hn : n = uniqueName ch (cfg.normalizeName field)
        · subst hn
          rw [Finmap.lookup_insert] at hl
          cases hl
          exact Nat.lt_succ_self n0
        · rw [Finmap.lookup_insert_of_ne _ hn] at hl
          have := hlt n de hl
          omega
      · intro n1 de1 n2 de2 h1 h2 he
        by_cases hn1 : n1 = uniqueName ch (cfg.normalizeName field) <;>
          by_cases hn2 : n2 = uniqueName ch (cfg.normalizeName field)
        · rw [hn1, hn2]
        · subst hn1
          rw [Finmap.lookup_insert] at h1
          rw [Finmap.lookup_insert_of_ne _ hn2] at h2
          cases h1
          have := hlt n2 de2 h2
          simp at he
          omega
        · subst hn2
          rw [Finmap.lookup_insert] at h2
          rw [Finmap.lookup_insert_of_ne _ hn1] at h1
          cases h2
          have := hlt n1 de1 h1
          simp at he
          omega
        · rw [Finmap.lookup_insert_of_ne _ hn1] at h1
          rw [Finmap.lookup_insert_of_ne _ hn2] at h2
          exact hu n1 de1 n2 de2 h1 h2 he

theorem workSum_ge_length (wl : List Work) : wl.length ≤ workSum wl := by
  induction wl with
  | nil => simp [workSum]
  | cons w rest ih =>
      have := jsize_pos w.2.2
      simp only [workSum_cons, List.length_cons]
      omega

theorem loopInv_fill_scalar (L parent inum : Nat) (v : Value) (rest : List Work)
    (st : IngestSt) (contents : List Nat)
    (hinv : LoopInv L ((parent, inum, v) :: rest) st)
    (hkind : jkind v = .regularFile) (hjs : jsize v = 1) :
    LoopInv L rest ⟨st.inodes.set inum (some ⟨parent, inum, .file contents⟩), st.nextId⟩ := by
  obtain ⟨hpop1, hpop2, hpop3⟩ := hinv.wlRange (parent, inum, v) (by simp)
  dsimp only at hpop1 hpop2 hpop3
  have hcnt := hinv.count
  rw [workSum_cons] at hcnt
  simp only [List.length_cons] at hcnt
  have hrest_ne : ∀ w ∈ rest, w.2.1 ≠ inum := by
    intro w hw he
    have hnd := hinv.nodup
    simp only [List.map_cons, List.nodup_cons] at hnd
    exact hnd.1 (List.mem_map.mpr ⟨w, hw, he⟩)
  have hget : ∀ j, j ≠ inum →
      (st.inodes.set inum (some ⟨parent, inum, .file contents⟩))[j]? = st.inodes[j]? := by
    intro j hj
    exact List.getElem?_set_ne (fun h => hj h.symm)
  have hgeti : (st.inodes.set inum (some ⟨parent, inum, .file contents⟩))[inum]? =
      some (some ⟨parent, inum, .file contents⟩) := by
    rw [List.getElem?_set_self', hpop3]
    rfl
  refine ⟨?_, ?_, ?_, hinv.nextPos, ?_, ?_, ?_, ?_, ?_, ?_, ?_⟩
  · simp [List.length_set, hinv.len]
  · rw [hget 0 (by omega)]
    exact hinv.slot0
  · dsimp only
    omega
  · have hnd := hinv.nodup
    simp only [List.map_cons, List.nodup_cons] at hnd
    exact hnd.2
  · intro w hw
    obtain ⟨h1, h2, h3⟩ := hinv.wlRange w (by simp [hw])
    exact ⟨h1, h2, by rw [hget _ (hrest_ne w hw)]; exact h3⟩
  · intro j i hj
    by_cases hji : j = inum
    · subst hji
      rw [hgeti] at hj
      cases hj
      exact ⟨rfl, hpop1, hpop2⟩
    · rw [hget j hji] at hj
      exact hinv.inumOK j i hj
  · intro j i dt f n de hj hie hl
    by_cases hji : j = inum
    · subst hji
      rw [hgeti] at hj
      cases hj
      cases hie
    · rw [hget j hji] at hj
      obtain ⟨hb1, hb2, hdisj⟩ := hinv.entriesOK j i dt f n de hj hie hl
      refine ⟨hb1, hb2, ?_⟩
      rcases hdisj with ⟨c, hc, hcp, hck⟩ | ⟨v', hv', hvk⟩
      · left
        have hne : de.inum ≠ inum := by
          intro he
          rw [he, hpop3] at hc
          cases hc
        exact ⟨c, by rw [hget _ hne]; exact hc, hcp, hck⟩
      · rcases List.mem_cons.mp hv' with h | h
        · cases h
          left
          refine ⟨_, hgeti, rfl, ?_⟩
          simp only [Entry.kind]
          rw [← hvk]
          exact hkind.symm
        · right
          exact ⟨v', h, hvk⟩
  · intro j1 i1 dt1 f1 n1 de1 j2 i2 dt2 f2 n2 de2 h1 he1 hl1 h2 he2 hl2 heq
    by_cases hj1 : j1 = inum
    · subst hj1
      rw [hgeti] at h1
      cases h1
      cases he1
    · by_cases hj2 : j2 = inum
      · subst hj2
        rw [hgeti] at h2
        cases h2
        cases he2
      · rw [hget j1 hj1] at h1
        rw [hget j2 hj2] at h2
        exact hinv.uniq j1 i1 dt1 f1 n1 de1 j2 i2 dt2 f2 n2 de2 h1 he1 hl1 h2 he2 hl2 heq
  · intro j hj1 hj2
    by_cases hji : j = inum
    · subst hji
      exact Or.inl ⟨_, hgeti⟩
    · rcases hinv.filled j hj1 hj2 with ⟨i, hi⟩ | ⟨w, hw, hwe⟩
      · exact Or.inl ⟨i, by rw [hget j hji]; exact hi⟩
      · rcases List.mem_cons.mp hw with h | h
        · rw [h] at hwe
          simp at hwe
          omega
        · exact Or.inr ⟨w, h, hwe⟩
  · intro j hj1 hj2
    dsimp only at hj1
    rw [hget j (by omega)]
    exact hinv.fresh j hj1 hj2

theorem loopInv_fill_dir (L parent inum : Nat) (v : Value) (rest : List Work)
    (st : IngestSt) (dt : DirType) (ch : Children) (wl' : List Work) (nid' K : Nat)
    (hinv : LoopInv L ((parent, inum, v) :: rest) st)
    (hkind : jkind v = .directory)
    (hnid : nid' = st.nextId + K)
    (hws : workSum wl' + 1 = jsize v + workSum rest)
    (hwlen : wl'.length = K + rest.length)
    (hmem : ∀ w ∈ wl', w ∈ rest ∨ (w.1 = inum ∧ st.nextId ≤ w.2.1 ∧ w.2.1 < nid'))
    (hmem' : ∀ w ∈ rest, w ∈ wl')
    (hcover : ∀ k, st.nextId ≤ k → k < nid' → ∃ w ∈ wl', w.2.1 = k)
    (hnodup : (wl'.map (fun w => w.2.1)).Nodup)
    (hent : ∀ n de, ch.lookup n = some de →
        st.nextId ≤ de.inum ∧ de.inum < nid' ∧
        ∃ v', (inum, de.inum, v') ∈ wl' ∧ jkind v' = de.kind)
    (hentu : ∀ n1 de1 n2 de2, ch.lookup n1 = some de1 → ch.lookup n2 = some de2 →
        de1.inum = de2.inum → n1 = n2) :
    LoopInv L wl' ⟨st.inodes.set inum (some ⟨parent, inum, .directory dt ch⟩), nid'⟩ := by
  obtain ⟨hpop1, hpop2, hpop3⟩ := hinv.wlRange (parent, inum, v) (by simp)
  dsimp only at hpop1 hpop2 hpop3
  have hcnt := hinv.count
  rw [workSum_cons] at hcnt
  simp only [List.length_cons] at hcnt
  have hnp := hinv.nextPos
  have hwge := workSum_ge_length wl'
  have hnidL : nid' ≤ L := by omega
  have hrest_ne : ∀ w ∈ rest, w.2.1 ≠ inum := by
    intro w hw he
    have hnd := hinv.nodup
    simp only [List.map_cons, List.nodup_cons] at hnd
    exact hnd.1 (List.mem_map.mpr ⟨w, hw, he⟩)
  have hget : ∀ j, j ≠ inum →
      (st.inodes.set inum (some ⟨parent, inum, .directory dt ch⟩))[j]? = st.inodes[j]? := by
    intro j hj
    exact List.getElem?_set_ne (fun h => hj h.symm)
  have hgeti : (st.inodes.set inum (some ⟨parent, inum, .directory dt ch⟩))[inum]? =
      some (some ⟨parent, inum, .directory dt ch⟩) := by
    rw [List.getElem?_set_self', hpop3]
    rfl
  refine ⟨?_, ?_, ?_, ?_, hnodup, ?_, ?_, ?_, ?_, ?_, ?_⟩
  · simp [List.length_set, hinv.len]
  · rw [hget 0 (by omega)]
    exact hinv.slot0
  · dsimp only
    omega
  · dsimp only
    omega
  · intro w hw
    rcases hmem w hw with h | ⟨h1, h2, h3⟩
    · obtain ⟨g1, g2, g3⟩ := hinv.wlRange w (by simp [h])
      exact ⟨g1, by dsimp only; omega, by rw [hget _ (hrest_ne w h)]; exact g3⟩
    · refine ⟨by omega, by dsimp only; omega, ?_⟩
      rw [hget _ (by omega)]
      exact hinv.fresh w.2.1 h2 (by omega)
  · intro j i hj
    by_cases hji : j = inum
    · subst hji
      rw [hgeti] at hj
      cases hj
      exact ⟨rfl, hpop1, by dsimp only; omega⟩
    · rw [hget j hji] at hj
      obtain ⟨g1, g2, g3⟩ := hinv.inumOK j i hj
      exact ⟨g1, g2, by dsimp only; omega⟩
  · intro j i dt1 f n de hj hie hl
    by_cases hji : j = inum
    · subst hji
      rw [hgeti] at hj
      cases hj
      cases hie
      obtain ⟨g1, g2, v', hv', hvk⟩ := hent n de hl
      exact ⟨by omega, by dsimp only; omega, Or.inr ⟨v', hv', hvk⟩⟩
    · rw [hget j hji] at hj
      obtain ⟨hb1, hb2, hdisj⟩ := hinv.entriesOK j i dt1 f n de hj hie hl
      refine ⟨hb1, by dsimp only; omega, ?_⟩
      rcases hdisj with ⟨c, hc, hcp, hck⟩ | ⟨v', hv', hvk⟩
      · left
        have hne : de.inum ≠ inum := by
          intro he
          rw [he, hpop3] at hc
          cases hc
        exact ⟨c, by rw [hget _ hne]; exact hc, hcp, hck⟩
      · rcases List.mem_cons.mp hv' with h | h
        · cases h
          left
          refine ⟨_, hgeti, rfl, ?_⟩
          simp only [Entry.kind]
          rw [← hvk]
          exact hkind.symm
        · right
          exact ⟨v', hmem' _ h, hvk⟩
  · intro j1 i1 dt1 f1 n1 de1 j2 i2 dt2 f2 n2 de2 h1 he1 hl1 h2 he2 hl2 heq
    by_cases hj1 : j1 = inum <;> by_cases hj2 : j2 = inum
    · subst hj1; subst hj2
      rw [hgeti] at h1 h2
      cases h1; cases h2
      cases he1; cases he2
      exact ⟨rfl, hentu n1 de1 n2 de2 hl1 hl2 heq⟩
    · subst hj1
      rw [hgeti] at h1
      cases h1
      cases he1
      rw [hget j2 hj2] at h2
      obtain ⟨g1, g2, _⟩ := hinv.entriesOK j2 i2 dt2 f2 n2 de2 h2 he2 hl2
      obtain ⟨g3, g4, _⟩ := hent n1 de1 hl1
      omega
    · subst hj2
      rw [hgeti] at h2
      cases h2
      cases he2
      rw [hget j1 hj1] at h1
      obtain ⟨g1, g2, _⟩ := hinv.entriesOK j1 i1 dt1 f1 n1 de1 h1 he1 hl1
      obtain ⟨g3, g4, _⟩ := hent n2 de2 hl2
      omega
    · rw [hget j1 hj1] at h1
      rw [hget j2 hj2] at h2
      exact hinv.uniq j1 i1 dt1 f1 n1 de1 j2 i2 dt2 f2 n2 de2 h1 he1 hl1 h2 he2 hl2 heq
  · intro j hj1 hj2
    dsimp only at hj2
    by_cases hji : j = inum
    · subst hji
      exact Or.inl ⟨_, hgeti⟩
    · by_cases hjn : j < st.nextId
      · rcases hinv.filled j hj1 hjn with ⟨i, hi⟩ | ⟨w, hw, hwe⟩
        · exact Or.inl ⟨i, by rw [hget j hji]; exact hi⟩
        · rcases List.mem_cons.mp hw with h | h
          · rw [h] at hwe
            simp at hwe
            omega
          · exact Or.inr ⟨w, hmem' _ h, hwe⟩
      · obtain ⟨w, hw, hwe⟩ := hcover j (by omega) (by omega)
        exact Or.inr ⟨w, hw, hwe⟩
  · intro j hj1 hj2
    dsimp only at hj1
    rw [hget j (by omega)]
    exact hinv.fresh j (by omega) hj2

theorem ingestLoopGo_inv (cfg : Config) (L : Nat) :
    ∀ (fuel : Nat) (wl : List Work) (st : IngestSt),
      workSum wl ≤ fuel → LoopInv L wl st →
      LoopInv L [] (ingestLoopGo cfg fuel wl st)
  | 0, wl, st => by
      intro hf hinv
      have hwl : wl = [] := by
        cases wl with
        | nil => rfl
        | cons w rest =>
            have := jsize_pos w.2.2
            rw [workSum_cons] at hf
            omega
      subst hwl
      exact hinv
  | fuel + 1, [], st => by
      intro hf hinv
      exact hinv
  | fuel + 1, (parent, inum, v) :: rest, st => by
      intro hf hinv
      rw [workSum_cons] at hf
      dsimp only at hf
      have hnd := hinv.nodup
      simp only [List.map_cons, List.nodup_cons] at hnd
      have hrestlt : ∀ w ∈ rest, w.2.1 < st.nextId := by
        intro w hw
        exact (hinv.wlRange w (by simp [hw])).2.1
      cases v with
      | null =>
          simp only [ingestLoopGo]
          exact ingestLoopGo_inv cfg L fuel rest _
            (by have : jsize Value.null = 1 := rfl; omega)
            (loopInv_fill_scalar L parent inum .null rest st _ hinv rfl rfl)
      | bool b =>
          simp only [ingestLoopGo]
          exact ingestLoopGo_inv cfg L fuel rest _
            (by have : jsize (Value.bool b) = 1 := rfl; omega)
            (loopInv_fill_scalar L parent inum (.bool b) rest st _ hinv rfl rfl)
      | num n =>
          simp only [ingestLoopGo]
          exact ingestLoopGo_inv cfg L fuel rest _
            (by have : jsize (Value.num n) = 1 := rfl; omega)
            (loopInv_fill_scalar L parent inum (.num n) rest st _ hinv rfl rfl)
      | str s =>
          simp only [ingestLoopGo]
          exact ingestLoopGo_inv cfg L fuel rest _
            (by have : jsize (Value.str s) = 1 := rfl; omega)
            (loopInv_fill_scalar L parent inum (.str s) rest st _ hinv rfl rfl)
      | arr vs =>
          simp only [ingestLoopGo]
          have hjsv : jsize (Value.arr vs) = jsizeList vs + 1 := rfl
          have hnext := ingestArr_nextId cfg inum (padWidth vs.length) vs 0 st.nextId ∅ rest
          have hwsum := workSum_ingestArr cfg inum (padWidth vs.length) vs 0 st.nextId ∅ rest
          refine ingestLoopGo_inv cfg L fuel _ _ (by omega) ?_
          refine loopInv_fill_dir L parent inum (.arr vs) rest st .list _ _ _ vs.length
            hinv rfl hnext (by omega) ?_ ?_ ?_ ?_ ?_ ?_ ?_
          · rw [ingestArr_wl_length]
          · intro w hw
            rcases ingestArr_mem cfg inum (padWidth vs.length) vs 0 st.nextId ∅ rest w hw
              with h | ⟨h1, h2, h3⟩
            · exact Or.inl h
            · exact Or.inr ⟨h1, h2, by omega⟩
          · intro w hw
            exact ingestArr_mem_of cfg inum (padWidth vs.length) vs 0 st.nextId ∅ rest w hw
          · intro k hk1 hk2
            exact ingestArr_cover cfg inum (padWidth vs.length) vs 0 st.nextId ∅ rest k hk1
              (by omega)
          · exact ingestArr_nodup cfg inum (padWidth vs.length) vs 0 st.nextId ∅ rest
              hrestlt hnd.2
          · intro n de hl
            have := ingestArr_lookup cfg inum (padWidth vs.length) st.nextId vs 0 st.nextId
              ∅ rest (le_refl _) hinv.nextPos
              (by intro n' de' hl'; rw [Finmap.lookup_empty] at hl'; cases hl') n de hl
            exact ⟨this.1, by omega, this.2.2⟩
          · exact ingestArr_lookup_uniq cfg inum (padWidth vs.length) vs 0 st.nextId ∅ rest
              (by intro n' de' hl'; rw [Finmap.lookup_empty] at hl'; cases hl')
              (by intro n1 de1 n2 de2 h1 _ _; rw [Finmap.lookup_empty] at h1; cases h1)
      | obj fvs =>
          simp only [ingestLoopGo]
          have hjsv : jsize (Value.obj fvs) = jsizeFields fvs + 1 := rfl
          have hnext := ingestObj_nextId cfg inum fvs st.nextId ∅ rest
          have hwsum := workSum_ingestObj cfg inum fvs st.nextId ∅ rest
          refine ingestLoopGo_inv cfg L fuel _ _ (by omega) ?_
          refine loopInv_fill_dir L parent inum (.obj fvs) rest st .named _ _ _ fvs.length
            hinv rfl hnext (by omega) ?_ ?_ ?_ ?_ ?_ ?_ ?_
          · rw [ingestObj_wl_length]
          · intro w hw
            rcases ingestObj_mem cfg inum fvs st.nextId ∅ rest w hw with h | ⟨h1, h2, h3⟩
            · exact Or.inl h
            · exact Or.inr ⟨h1, h2, by omega⟩
          · intro w hw
            exact ingestObj_mem_of cfg inum fvs st.nextId ∅ rest w hw
          · intro k hk1 hk2
            exact ingestObj_cover cfg inum fvs st.nextId ∅ rest k hk1 (by omega)
          · exact ingestObj_nodup cfg inum fvs st.nextId ∅ rest hrestlt hnd.2
          · intro n de hl
            have := ingestObj_lookup cfg inum st.nextId fvs st.nextId ∅ rest (le_refl _)
              hinv.nextPos
              (by intro n' de' hl'; rw [Finmap.lookup_empty] at hl'; cases hl') n de hl
            exact ⟨this.1, by omega, this.2.2⟩
          · exact ingestObj_lookup_uniq cfg inum fvs st.nextId ∅ rest
              (by intro n' de' hl'; rw [Finmap.lookup_empty] at hl'; cases hl')
              (by intro n1 de1 n2 de2 h1 _ _; rw [Finmap.lookup_empty] at h1; cases h1)

theorem loopInv_init (v : Value) :
    LoopInv (jsize v + 1) [(1, 1, v)] ⟨List.replicate (jsize v + 1) none, 2⟩ := by
  have hrep : ∀ j, j < jsize v + 1 →
      (List.replicate (jsize v + 1) (none : Option Inode))[j]? = some none := by
    intro j hj
    rw [List.getElem?_replicate, if_pos hj]
  have hrepn : ∀ j, jsize v + 1 ≤ j →
      (List.replicate (jsize v + 1) (none : Option Inode))[j]? = none := by
    intro j hj
    rw [List.getElem?_eq_none]
    simpa using hj
  have hpos := jsize_pos v
  have hnone : ∀ (j : Nat) (i : Inode),
      (List.replicate (jsize v + 1) (none : Option Inode))[j]? = some (some i) → False := by
    intro j i hj
    by_cases hjL : j < jsize v + 1
    · rw [hrep j hjL] at hj
      cases hj
    · rw [hrepn j (by omega)] at hj
      cases hj
  refine ⟨by simp, hrep 0 (by omega), ?_, Nat.le_succ 1, by simp, ?_, ?_, ?_, ?_, ?_, ?_⟩
  · show 2 + workSum [(1, 1, v)] = (jsize v + 1) + 1
    rw [workSum_cons]
    dsimp only
    simp [workSum]
    omega
  · intro w hw
    simp only [List.mem_singleton] at hw
    subst hw
    exact ⟨Nat.le_refl 1, Nat.lt_succ_self 1, hrep 1 (by omega)⟩
  · intro j i hj
    exact (hnone j i hj).elim
  · intro j i dt f n de hj hie hl
    exact (hnone j i hj).elim
  · intro j1 i1 dt1 f1 n1 de1 j2 i2 dt2 f2 n2 de2 h1 he1 hl1 h2 he2 hl2 heq
    exact (hnone j1 i1 h1).elim
  · intro j hj1 hj2
    dsimp only at hj2
    right
    exact ⟨(1, 1, v), by simp, by dsimp only; omega⟩
  · intro j hj1 hj2
    exact hrep j hj2

theorem loopInv_final (L : Nat) (ist : IngestSt) (h : LoopInv L [] ist) :
    ist.inodes.length = L ∧ ist.nextId = L ∧
    ist.inodes[0]? = some none ∧
    (∀ j, 1 ≤ j → j < L → ∃ i, ist.inodes[j]? = some (some i)) := by
  have hcnt := h.count
  simp only [workSum, List.map_nil, List.sum_nil, List.length_nil, Nat.add_zero] at hcnt
  refine ⟨h.len, hcnt, h.slot0, ?_⟩
  intro j hj1 hj2
  rcases h.filled j hj1 (by omega) with ⟨i, hi⟩ | ⟨w, hw, _⟩
  · exact ⟨i, hi⟩
  · cases hw

theorem loopInv_final_stateInv (L : Nat) (ist : IngestSt) (cfg : Config)
    (h : LoopInv L [] ist) : StateInv ⟨ist.inodes, cfg⟩ := by
  constructor
  · intro j ind hind
    refine ⟨(h.inumOK j ind hind).1, ?_⟩
    intro dt files hie n de hl
    obtain ⟨hb1, hb2, hdisj⟩ := h.entriesOK j ind dt files n de hind hie hl
    rcases hdisj with ⟨c, hc, hcp, hck⟩ | ⟨v', hv', _⟩
    · exact ⟨c, FS.get_ok_iff.mpr hc, hcp, hck⟩
    · cases hv'
  · intro j1 i1 dt1 f1 n1 de1 j2 i2 dt2 f2 n2 de2 h1 he1 hl1 h2 he2 hl2 heq
    exact h.uniq j1 i1 dt1 f1 n1 de1 j2 i2 dt2 f2 n2 de2 h1 he1 hl1 h2 he2 hl2 heq

theorem json_fsIngest_loopInv (cfg : Config) (v : Value) (ist : IngestSt)
    (h : Json.fsIngest cfg v = some ist) : LoopInv (jsize v + 1) [] ist := by
  cases v with
  | null => cases h
  | bool b => cases h
  | num n => cases h
  | str s => cases h
  | arr vs =>
      simp only [Json.fsIngest] at h
      cases h
      exact ingestLoopGo_inv cfg _ _ _ _ (le_refl _) (loopInv_init _)
  | obj fvs =>
      simp only [Json.fsIngest] at h
      cases h
      exact ingestLoopGo_inv cfg _ _ _ _ (le_refl _) (loopInv_init _)

theorem json_fs_stateInv (cfg : Config) (v : Value) (st : FS)
    (h : Json.fs cfg v = some st) : StateInv st := by
  unfold Json.fs at h
  cases hing : Json.fsIngest cfg v with
  | none => rw [hing] at h; cases h
  | some ist =>
      rw [hing] at h
      cases h
      exact loopInv_final_stateInv _ ist cfg (json_fsIngest_loopInv cfg v ist hing)

theorem getElem?_set_self_of_some {α : Type} {l : List α} {k : Nat} {a b : α}
    (h : l[k]? = some b) : (l.set k a)[k]? = some a := by
  rw [List.getElem?_set_self', h]
  rfl

theorem stateInv_set_file (fs : FS) (ino p n : Nat) (c c' : List Nat)
    (hslot : fs.inodes[ino]? = some (some ⟨p, n, .file c⟩))
    (hinv : StateInv fs) :
    StateInv { fs with inodes := fs.inodes.set ino (some ⟨p, n, .file c'⟩) } := by
  obtain ⟨hE, hU⟩ := hinv
  have hup : ∀ j, j ≠ ino →
      (fs.inodes.set ino (some ⟨p, n, .file c'⟩))[j]? = fs.inodes[j]? :=
    fun j hj => List.getElem?_set_ne (fun h => hj h.symm)
  have hupi : (fs.inodes.set ino (some ⟨p, n, .file c'⟩))[ino]? =
      some (some ⟨p, n, .file c'⟩) := getElem?_set_self_of_some hslot
  constructor
  · intro j ind hind
    by_cases hji : j = ino
    · subst hji
      rw [hupi] at hind
      cases hind
      refine ⟨(hE _ _ hslot).1, ?_⟩
      intro dt files hie
      cases hie
    · rw [hup j hji] at hind
      obtain ⟨hinum, hch⟩ := hE j ind hind
      refine ⟨hinum, ?_⟩
      intro dt files hie nm de hl
      obtain ⟨cc, hcc, hccp, hcck⟩ := hch dt files hie nm de hl
      rw [FS.get_ok_iff] at hcc
      by_cases hde : de.inum = ino
      · rw [hde, hslot] at hcc
        cases hcc
        refine ⟨⟨p, n, .file c'⟩, ?_, hccp, hcck⟩
        rw [FS.get_ok_iff]
        show (fs.inodes.set ino (some ⟨p, n, .file c'⟩))[de.inum]? = _
        rw [hde]
        exact hupi
      · refine ⟨cc, ?_, hccp, hcck⟩
        rw [FS.get_ok_iff]
        show (fs.inodes.set ino (some ⟨p, n, .file c'⟩))[de.inum]? = _
        rw [hup de.inum hde]
        exact hcc
  · intro j1 i1 dt1 f1 n1 de1 j2 i2 dt2 f2 n2 de2 h1 he1 hl1 h2 he2 hl2 heq
    by_cases hj1 : j1 = ino
    · subst hj1
      rw [hupi] at h1
      cases h1
      cases he1
    · by_cases hj2 : j2 = ino
      · subst hj2
        rw [hupi] at h2
        cases h2
        cases he2
      · rw [hup j1 hj1] at h1
        rw [hup j2 hj2] at h2
        exact hU j1 i1 dt1 f1 n1 de1 j2 i2 dt2 f2 n2 de2 h1 he1 hl1 h2 he2 hl2 heq

theorem stateInv_erase_child (fs : FS) (p pp pn : Nat) (dt : DirType)
    (files : Children) (name : String)
    (hslot : fs.inodes[p]? = some (some ⟨pp, pn, .directory dt files⟩))
    (hinv : StateInv fs) :
    StateInv { fs with
      inodes := fs.inodes.set p (some ⟨pp, pn, .directory dt (files.erase name)⟩) } := by
  obtain ⟨hE, hU⟩ := hinv
  have hup : ∀ j, j ≠ p →
      (fs.inodes.set p (some ⟨pp, pn, .directory dt (files.erase name)⟩))[j]? =
        fs.inodes[j]? :=
    fun j hj => List.getElem?_set_ne (fun h => hj h.symm)
  have hupi : (fs.inodes.set p (some ⟨pp, pn, .directory dt (files.erase name)⟩))[p]? =
      some (some ⟨pp, pn, .directory dt (files.erase name)⟩) :=
    getElem?_set_self_of_some hslot
  have hlookup : ∀ nm de, (files.erase name).lookup nm = some de →
      files.lookup nm = some de := by
    intro nm de hl
    by_cases hn : nm = name
    · subst hn
      rw [Finmap.lookup_erase] at hl
      cases hl
    · rw [Finmap.lookup_erase_ne hn] at hl
      exact hl
  have hchildOK : ∀ j (de : DirEntry),
      (∃ c, fs.get de.inum = .ok c ∧ c.parent = j ∧ c.entry.kind = de.kind) →
      (∃ c, ({ fs with
          inodes := fs.inodes.set p (some ⟨pp, pn, .directory dt (files.erase name)⟩) } : FS).get de.inum = .ok c ∧
        c.parent = j ∧ c.entry.kind = de.kind) := by
    intro j de ⟨cc, hcc, hccp, hcck⟩
    rw [FS.get_ok_iff] at hcc
    by_cases hde : de.inum = p
    · rw [hde, hslot] at hcc
      cases hcc
      refine ⟨⟨pp, pn, .directory dt (files.erase name)⟩, ?_, hccp, hcck⟩
      rw [FS.get_ok_iff]
      show (fs.inodes.set p _)[de.inum]? = _
      rw [hde]
      exact hupi
    · refine ⟨cc, ?_, hccp, hcck⟩
      rw [FS.get_ok_iff]
      show (fs.inodes.set p _)[de.inum]? = _
      rw [hup de.inum hde]
      exact hcc
  have hpOld := hE p ⟨pp, pn, .directory dt files⟩ hslot
  constructor
  · intro j ind hind
    by_cases hji : j = p
    · rw [hji, hupi] at hind
      cases hind
      constructor
      · rw [hji]
        exact hpOld.1
      · intro dt1 files1 hie nm de hl
        cases hie
        rw [hji]
        exact hchildOK p de (hpOld.2 dt files rfl nm de (hlookup nm de hl))
    · rw [hup j hji] at hind
      obtain ⟨hinum, hch⟩ := hE j ind hind
      refine ⟨hinum, ?_⟩
      intro dt1 files1 hie nm de hl
      exact hchildOK j de (hch dt1 files1 hie nm de hl)
  · intro j1 i1 dt1 f1 n1 de1 j2 i2 dt2 f2 n2 de2 h1 he1 hl1 h2 he2 hl2 heq
    by_cases hj1 : j1 = p <;> by_cases hj2 : j2 = p
    · rw [hj1, hupi] at h1
      rw [hj2, hupi] at h2
      cases h1
      cases h2
      cases he1
      cases he2
      have := hU p _ dt files n1 de1 p _ dt files n2 de2 hslot rfl
        (hlookup n1 de1 hl1) hslot rfl (hlookup n2 de2 hl2) heq
      exact ⟨hj1.trans hj2.symm, this.2⟩
    · rw [hj1, hupi] at h1
      cases h1
      cases he1
      rw [hup j2 hj2] at h2
      have := hU p _ dt files n1 de1 j2 i2 dt2 f2 n2 de2 hslot rfl
        (hlookup n1 de1 hl1) h2 he2 hl2 heq
      exact ⟨hj1.trans this.1, this.2⟩
    · rw [hj2, hupi] at h2
      cases h2
      cases he2
      rw [hup j1 hj1] at h1
      have := hU j1 i1 dt1 f1 n1 de1 p _ dt files n2 de2 h1 he1 hl1 hslot rfl
        (hlookup n2 de2 hl2) heq
      exact ⟨this.1.trans hj2.symm, this.2⟩
    · rw [hup j1 hj1] at h1
      rw [hup j2 hj2] at h2
      exact hU j1 i1 dt1 f1 n1 de1 j2 i2 dt2 f2 n2 de2 h1 he1 hl1 h2 he2 hl2 heq

theorem lt_of_getElem?_some {α : Type} {l : List α} {k : Nat} {a : α}
    (h : l[k]? = some a) : k < l.length := by
  by_contra hn
  rw [List.getElem?_eq_none (by omega)] at h
  cases h

theorem stateInv_add_child (fs : FS) (parent pp pn : Nat) (dt : DirType)
    (files : Children) (name : String) (entry : Entry) (kind : FileKind)
    (hslot : fs.inodes[parent]? = some (some ⟨pp, pn, .directory dt files⟩))
    (hk : entry.kind = kind)
    (hnew : ∀ dt2 ch2, entry = .directory dt2 ch2 →
      ∀ nm de, ch2.lookup nm = some de → False)
    (hinv : StateInv fs) :
    StateInv { fs with
      inodes := (fs.inodes ++ [some (⟨parent, fs.inodes.length, entry⟩ : Inode)]).set parent
        (some ⟨pp, pn, .directory dt (files.insert name ⟨kind, fs.inodes.length⟩)⟩) } := by
  obtain ⟨hE, hU⟩ := hinv
  have hplt : parent < fs.inodes.length := lt_of_getElem?_some hslot
  have hpne : parent ≠ fs.inodes.length := by omega
  have happ : ∀ j, j ≠ fs.inodes.length →
      (fs.inodes ++ [some (⟨parent, fs.inodes.length, entry⟩ : Inode)])[j]? = fs.inodes[j]? := by
    intro j hj
    by_cases hjl : j < fs.inodes.length
    · exact List.getElem?_append_left hjl
    · rw [List.getElem?_eq_none (by simp; omega), List.getElem?_eq_none (by omega)]
  have happL : (fs.inodes ++ [some (⟨parent, fs.inodes.length, entry⟩ : Inode)])[fs.inodes.length]? =
      some (some ⟨parent, fs.inodes.length, entry⟩) := List.getElem?_concat_length _ _
  have happP : (fs.inodes ++ [some (⟨parent, fs.inodes.length, entry⟩ : Inode)])[parent]? =
      some (some ⟨pp, pn, .directory dt files⟩) := by
    rw [happ parent hpne]
    exact hslot
  have hupP : ((fs.inodes ++ [some (⟨parent, fs.inodes.length, entry⟩ : Inode)]).set parent
      (some ⟨pp, pn, .directory dt (files.insert name ⟨kind, fs.inodes.length⟩)⟩))[parent]? =
      some (some ⟨pp, pn, .directory dt (files.insert name ⟨kind, fs.inodes.length⟩)⟩) :=
    getElem?_set_self_of_some happP
  have hupN : ∀ j, j ≠ parent →
      ((fs.inodes ++ [some (⟨parent, fs.inodes.length, entry⟩ : Inode)]).set parent
        (some ⟨pp, pn, .directory dt (files.insert name ⟨kind, fs.inodes.length⟩)⟩))[j]? =
      (fs.inodes ++ [some (⟨parent, fs.inodes.length, entry⟩ : Inode)])[j]? := by
    intro j hj
    exact List.getElem?_set_ne (fun h => hj h.symm)
  have hpOld := hE parent ⟨pp, pn, .directory dt files⟩ hslot
  -- an old ChildOK still holds in the new state
  have hchildOK : ∀ j (de : DirEntry),
      (∃ c, fs.get de.inum = .ok c ∧ c.parent = j ∧ c.entry.kind = de.kind) →
      (∃ c, ({ fs with
          inodes := (fs.inodes ++ [some (⟨parent, fs.inodes.length, entry⟩ : Inode)]).set parent
            (some ⟨pp, pn, .directory dt (files.insert name ⟨kind, fs.inodes.length⟩)⟩) } : FS).get de.inum = .ok c ∧
        c.parent = j ∧ c.entry.kind = de.kind) := by
    intro j de ⟨cc, hcc, hccp, hcck⟩
    rw [FS.get_ok_iff] at hcc
    have hlt := lt_of_getElem?_some hcc
    by_cases hde : de.inum = parent
    · rw [hde, hslot] at hcc
      cases hcc
      refine ⟨⟨pp, pn, .directory dt (files.insert name ⟨kind, fs.inodes.length⟩)⟩, ?_, hccp, hcck⟩
      rw [FS.get_ok_iff]
      dsimp only
      rw [hde]
      exact hupP
    · refine ⟨cc, ?_, hccp, hcck⟩
      rw [FS.get_ok_iff]
      dsimp only
      rw [hupN de.inum hde, happ de.inum (by omega)]
      exact hcc
  constructor
  · intro j ind hind
    by_cases hjp : j = parent
    · rw [hjp, hupP] at hind
      cases hind
      constructor
      · rw [hjp]
        exact hpOld.1
      · intro dt1 files1 hie nm de hl
        cases hie
        by_cases hnm : nm = name
        · rw [hnm, Finmap.lookup_insert] at hl
          cases hl
          refine ⟨⟨parent, fs.inodes.length, entry⟩, ?_, hjp.symm, hk⟩
          rw [FS.get_ok_iff]
          dsimp only
          rw [hupN _ hpne.symm]
          exact happL
        · rw [Finmap.lookup_insert_of_ne _ hnm] at hl
          rw [hjp]
          exact hchildOK parent de (hpOld.2 dt files rfl nm de hl)
    · by_cases hjL : j = fs.inodes.length
      · rw [hjL, hupN _ hpne.symm, happL] at hind
        cases hind
        constructor
        · rw [hjL]
        · intro dt1 files1 hie nm de hl
          exact (hnew dt1 files1 hie nm de hl).elim
      · rw [hupN j hjp, happ j hjL] at hind
        obtain ⟨hinum, hch⟩ := hE j ind hind
        refine ⟨hinum, ?_⟩
        intro dt1 files1 hie nm de hl
        exact hchildOK j de (hch dt1 files1 hie nm de hl)
  · intro j1 i1 dt1 f1 n1 de1 j2 i2 dt2 f2 n2 de2 h1 he1 hl1 h2 he2 hl2 heq
    -- targets of old entries are below the table length
    have oldTarget : ∀ (j : Nat) (i : Inode) (dtx : DirType) (f : Children) (n : String)
        (de : DirEntry), fs.inodes[j]? = some (some i) → i.entry = .directory dtx f →
        f.lookup n = some de → de.inum < fs.inodes.length := by
      intro j i dtx f n de hj hie hl
      obtain ⟨_, hch⟩ := hE j i hj
      obtain ⟨cc, hcc, _, _⟩ := hch dtx f hie n de hl
      rw [FS.get_ok_iff] at hcc
      exact lt_of_getElem?_some hcc
    -- characterize an entry of the NEW state: either an old entry or the inserted one
    have newEntry : ∀ (j : Nat) (i : Inode) (dtx : DirType) (f : Children) (n : String)
        (de : DirEntry),
        ((fs.inodes ++ [some (⟨parent, fs.inodes.length, entry⟩ : Inode)]).set parent
          (some ⟨pp, pn, .directory dt (files.insert name ⟨kind, fs.inodes.length⟩)⟩))[j]? =
          some (some i) →
        i.entry = .directory dtx f → f.lookup n = some de →
        (fs.inodes[j]? = some (some i) ∧ de.inum < fs.inodes.length ∧
          (∃ i0 : Inode, fs.inodes[j]? = some (some i0) ∧ i0.entry = .directory dtx f)) ∨
        (j = parent ∧ n = name ∧ de = ⟨kind, fs.inodes.length⟩) ∨
        (j = parent ∧ n ≠ name ∧ files.lookup n = some de ∧ de.inum < fs.inodes.length) := by
      intro j i dtx f n de hj hie hl
      by_cases hjp : j = parent
      · rw [hjp, hupP] at hj
        cases hj
        cases hie
        by_cases hnm : n = name
        · rw [hnm, Finmap.lookup_insert] at hl
          cases hl
          exact Or.inr (Or.inl ⟨hjp, hnm, rfl⟩)
        · rw [Finmap.lookup_insert_of_ne _ hnm] at hl
          exact Or.inr (Or.inr ⟨hjp, hnm, hl,
            oldTarget parent _ dt files n de hslot rfl hl⟩)
      · by_cases hjL : j = fs.inodes.length
        · rw [hjL, hupN _ hpne.symm, happL] at hj
          cases hj
          exact (hnew dtx f hie n de hl).elim
        · rw [hupN j hjp, happ j hjL] at hj
          exact Or.inl ⟨hj, oldTarget j i dtx f n de hj hie hl, i, hj, hie⟩
    rcases newEntry j1 i1 dt1 f1 n1 de1 h1 he1 hl1 with ⟨ho1, hb1, _⟩ | ⟨hp1, hn1, hde1⟩ | ⟨hp1, hn1, hl1', hb1⟩ <;>
      rcases newEntry j2 i2 dt2 f2 n2 de2 h2 he2 hl2 with ⟨ho2, hb2, _⟩ | ⟨hp2, hn2, hde2⟩ | ⟨hp2, hn2, hl2', hb2⟩
    · exact hU j1 i1 dt1 f1 n1 de1 j2 i2 dt2 f2 n2 de2 ho1 he1 hl1 ho2 he2 hl2 heq
    · rw [hde2] at heq
      dsimp only at heq
      omega
    · have := hU j1 i1 dt1 f1 n1 de1 parent _ dt files n2 de2 ho1 he1 hl1
        hslot rfl hl2' heq
      exact ⟨this.1.trans hp2.symm, this.2⟩
    · rw [hde1] at heq
      dsimp only at heq
      omega
    · exact ⟨hp1.trans hp2.symm, hn1.trans hn2.symm⟩
    · rw [hde1] at heq
      dsimp only at heq
      omega
    · have := hU parent _ dt files n1 de1 j2 i2 dt2 f2 n2 de2 hslot rfl hl1' ho2 he2 hl2 heq
      exact ⟨hp1.trans this.1, this.2⟩
    · rw [hde2] at heq
      dsimp only at heq
      omega
    · have := hU parent _ dt files n1 de1 parent _ dt files n2 de2 hslot rfl hl1'
        hslot rfl hl2' heq
      exact ⟨hp1.trans hp2.symm, this.2⟩

theorem modifyChildren_some_inv {fs fs' : FS} {j : Nat} {f : Children → Children}
    (h : fs.modifyChildren j f = some fs') :
    ∃ p i dt files, fs.inodes[j]? = some (some ⟨p, i, .directory dt files⟩) ∧
      fs' = { fs with inodes := fs.inodes.set j (some ⟨p, i, .directory dt (f files)⟩) } := by
  unfold FS.modifyChildren at h
  split at h
  · next p i dt files heq =>
      cases h
      exact ⟨p, i, dt, files, heq, rfl⟩
  · cases h

theorem Children.lookup_insert_cases {f : Children} {k nm : String} {x de : DirEntry}
    (h : (f.insert k x).lookup nm = some de) :
    (nm = k ∧ de = x) ∨ (nm ≠ k ∧ f.lookup nm = some de) := by
  by_cases hk : nm = k
  · subst hk
    rw [Finmap.lookup_insert] at h
    cases h
    exact Or.inl ⟨rfl, rfl⟩
  · rw [Finmap.lookup_insert_of_ne _ hk] at h
    exact Or.inr ⟨hk, h⟩

theorem Children.lookup_erase_cases {f : Children} {k nm : String} {de : DirEntry}
    (h : (f.erase k).lookup nm = some de) : nm ≠ k ∧ f.lookup nm = some de := by
  by_cases hk : nm = k
  · subst hk
    rw [Finmap.lookup_erase] at h
    cases h
  · rw [Finmap.lookup_erase_ne hk] at h
    exact ⟨hk, h⟩

theorem stateInv_rename_commit
    (fs : FS) (parent newparent srcInum : Nat) (src tgt : String) (srcKind : FileKind)
    (pp pn : Nat) (pdt : DirType) (files : Children)
    (hps : fs.inodes[parent]? = some (some ⟨pp, pn, .directory pdt files⟩))
    (hsrc : files.lookup src = some ⟨srcKind, srcInum⟩)
    (fs1 fs2 : FS) (c2 : Inode)
    (h1 : fs.modifyChildren parent (fun f => f.erase src) = some fs1)
    (h2 : fs1.modifyChildren newparent (fun f => f.insert tgt ⟨srcKind, srcInum⟩) = some fs2)
    (h3 : fs2.inodes[srcInum]? = some (some c2))
    (hinv : StateInv fs) :
    StateInv { fs2 with inodes := fs2.inodes.set srcInum (some ⟨newparent, c2.inum, c2.entry⟩) } := by
  obtain ⟨hE, hU⟩ := hinv
  obtain ⟨c0, hc0get, hc0p, hc0k⟩ :=
    (hE parent _ hps).2 pdt files rfl src ⟨srcKind, srcInum⟩ hsrc
  rw [FS.get_ok_iff] at hc0get
  dsimp only at hc0p hc0k hc0get
  obtain ⟨a1, a2, adt, afiles, ha, hfs1⟩ := modifyChildren_some_inv h1
  rw [hps] at ha
  simp only [Option.some.injEq, Inode.mk.injEq, Entry.directory.injEq] at ha
  obtain ⟨ha1, ha2, ha3, ha4⟩ := ha
  subst ha1
  subst ha2
  subst ha3
  subst ha4
  subst hfs1
  obtain ⟨b1, b2, bdt, bfiles, hb, hfs2⟩ := modifyChildren_some_inv h2
  subst hfs2
  dsimp only at hb h3 ⊢
  have hbchar : (newparent = parent ∧ b1 = pp ∧ b2 = pn ∧ bdt = pdt ∧
      bfiles = files.erase src) ∨
      (newparent ≠ parent ∧ fs.inodes[newparent]? = some (some ⟨b1, b2, .directory bdt bfiles⟩)) := by
    by_cases hnp : newparent = parent
    · left
      rw [hnp, getElem?_set_self_of_some hps] at hb
      simp only [Option.some.injEq, Inode.mk.injEq, Entry.directory.injEq] at hb
      exact ⟨hnp, hb.1.symm, hb.2.1.symm, hb.2.2.1.symm, hb.2.2.2.symm⟩
    · right
      rw [List.getElem?_set_ne (fun h => hnp h.symm)] at hb
      exact ⟨hnp, hb⟩
  -- the four-way getter for the final table
  have hT1 : (((fs.inodes.set parent
        (some ⟨pp, pn, .directory pdt (files.erase src)⟩)).set newparent
        (some ⟨b1, b2, .directory bdt (bfiles.insert tgt ⟨srcKind, srcInum⟩)⟩)).set srcInum
        (some ⟨newparent, c2.inum, c2.entry⟩))[srcInum]? =
      some (some ⟨newparent, c2.inum, c2.entry⟩) := getElem?_set_self_of_some h3
  have hT2 : ∀ j, j ≠ srcInum → j = newparent →
      (((fs.inodes.set parent (some ⟨pp, pn, .directory pdt (files.erase src)⟩)).set newparent
        (some ⟨b1, b2, .directory bdt (bfiles.insert tgt ⟨srcKind, srcInum⟩)⟩)).set srcInum
        (some ⟨newparent, c2.inum, c2.entry⟩))[j]? =
      some (some ⟨b1, b2, .directory bdt (bfiles.insert tgt ⟨srcKind, srcInum⟩)⟩) := by
    intro j hj1 hj2
    rw [List.getElem?_set_ne (fun h => hj1 h.symm), hj2]
    exact getElem?_set_self_of_some hb
  have hT3 : ∀ j, j ≠ srcInum → j ≠ newparent → j = parent →
      (((fs.inodes.set parent (some ⟨pp, pn, .directory pdt (files.erase src)⟩)).set newparent
        (some ⟨b1, b2, .directory bdt (bfiles.insert tgt ⟨srcKind, srcInum⟩)⟩)).set srcInum
        (some ⟨newparent, c2.inum, c2.entry⟩))[j]? =
      some (some ⟨pp, pn, .directory pdt (files.erase src)⟩) := by
    intro j hj1 hj2 hj3
    rw [List.getElem?_set_ne (fun h => hj1 h.symm),
      List.getElem?_set_ne (fun h => hj2 h.symm), hj3]
    exact getElem?_set_self_of_some hps
  have hT4 : ∀ j, j ≠ srcInum → j ≠ newparent → j ≠ parent →
      (((fs.inodes.set parent (some ⟨pp, pn, .directory pdt (files.erase src)⟩)).set newparent
        (some ⟨b1, b2, .directory bdt (bfiles.insert tgt ⟨srcKind, srcInum⟩)⟩)).set srcInum
        (some ⟨newparent, c2.inum, c2.entry⟩))[j]? = fs.inodes[j]? := by
    intro j hj1 hj2 hj3
    rw [List.getElem?_set_ne (fun h => hj1 h.symm),
      List.getElem?_set_ne (fun h => hj2 h.symm),
      List.getElem?_set_ne (fun h => hj3 h.symm)]
  -- where the inode now at srcInum came from
  have hc2char : (srcInum = newparent ∧
        c2 = ⟨b1, b2, .directory bdt (bfiles.insert tgt ⟨srcKind, srcInum⟩)⟩) ∨
      (srcInum ≠ newparent ∧ srcInum = parent ∧
        c2 = ⟨pp, pn, .directory pdt (files.erase src)⟩) ∨
      (srcInum ≠ newparent ∧ srcInum ≠ parent ∧ c2 = c0) := by
    by_cases hsn : srcInum = newparent
    · left
      subst hsn
      rw [getElem?_set_self_of_some hb] at h3
      simp only [Option.some.injEq] at h3
      exact ⟨rfl, h3.symm⟩
    · rw [List.getElem?_set_ne (fun h => hsn h.symm)] at h3
      by_cases hsp : srcInum = parent
      · right; left
        subst hsp
        rw [getElem?_set_self_of_some hps] at h3
        simp only [Option.some.injEq] at h3
        exact ⟨hsn, rfl, h3.symm⟩
      · right; right
        rw [List.getElem?_set_ne (fun h => hsp h.symm)] at h3
        rw [hc0get] at h3
        simp only [Option.some.injEq] at h3
        exact ⟨hsn, hsp, h3.symm⟩
  -- inum bookkeeping for the rewritten slots
  have hpn : pn = parent := (hE parent _ hps).1
  have hc0inum : c0.inum = srcInum := (hE srcInum c0 hc0get).1
  have hb2 : b2 = newparent := by
    rcases hbchar with ⟨hnp, _, hb2', _, _⟩ | ⟨_, hget⟩
    · rw [hb2', hpn, hnp]
    · exact (hE newparent _ hget).1
  have hfsnp : ∃ (dt0 : DirType) (f0 : Children),
      fs.inodes[newparent]? = some (some ⟨b1, b2, .directory dt0 f0⟩) := by
    rcases hbchar with ⟨hnp, hb1', hb2', _, _⟩ | ⟨_, hget⟩
    · refine ⟨pdt, files, ?_⟩
      rw [hnp, hb1', hb2']
      exact hps
    · exact ⟨bdt, bfiles, hget⟩
  have hc2kind : c2.entry.kind = srcKind := by
    rcases hc2char with ⟨hsn, hc2⟩ | ⟨hsn, hsp, hc2⟩ | ⟨hsn, hsp, hc2⟩
    · obtain ⟨dt0, f0, hget⟩ := hfsnp
      rw [← hsn, hc0get] at hget
      simp only [Option.some.injEq] at hget
      rw [hc2]
      exact (congrArg (fun i => Entry.kind i.entry) hget).symm.trans hc0k
    · have hg : c0 = ⟨pp, pn, .directory pdt files⟩ := by
        have hg' := hc0get
        rw [hsp, hps] at hg'
        simp only [Option.some.injEq] at hg'
        exact hg'.symm
      rw [hc2]
      exact (congrArg (fun i => Entry.kind i.entry) hg).symm.trans hc0k
    · rw [hc2]
      exact hc0k
  have hc2inum : c2.inum = srcInum := by
    rcases hc2char with ⟨hsn, hc2⟩ | ⟨hsn, hsp, hc2⟩ | ⟨hsn, hsp, hc2⟩
    · rw [hc2]
      show b2 = srcInum
      omega
    · rw [hc2]
      show pn = srcInum
      omega
    · rw [hc2]
      exact hc0inum
  -- entries of the newparent directory before the rename map back to entries of fs
  have hbent : ∀ (nm : String) (de : DirEntry), bfiles.lookup nm = some de →
      ¬(newparent = parent ∧ nm = src) ∧
      ∃ (i0 : Inode) (dt0 : DirType) (f0 : Children),
        fs.inodes[newparent]? = some (some i0) ∧ i0.entry = .directory dt0 f0 ∧
          f0.lookup nm = some de := by
    intro nm de hl
    rcases hbchar with ⟨hnp, _, _, _, hbf'⟩ | ⟨hnp, hget⟩
    · rw [hbf'] at hl
      obtain ⟨hns, hl'⟩ := Children.lookup_erase_cases hl
      refine ⟨fun h => hns h.2, ⟨pp, pn, .directory pdt files⟩, pdt, files, ?_, rfl, hl'⟩
      rw [hnp]
      exact hps
    · exact ⟨fun h => hnp h.1, ⟨b1, b2, .directory bdt bfiles⟩, bdt, bfiles, hget, rfl, hl⟩
  -- classification of the live slots of the final table
  have hslot : ∀ (j : Nat) (ind : Inode),
      (((fs.inodes.set parent (some ⟨pp, pn, .directory pdt (files.erase src)⟩)).set newparent
        (some ⟨b1, b2, .directory bdt (bfiles.insert tgt ⟨srcKind, srcInum⟩)⟩)).set srcInum
        (some ⟨newparent, c2.inum, c2.entry⟩))[j]? = some (some ind) →
      (j = srcInum ∧ ind = ⟨newparent, c2.inum, c2.entry⟩) ∨
      (j ≠ srcInum ∧ j = newparent ∧
        ind = ⟨b1, b2, .directory bdt (bfiles.insert tgt ⟨srcKind, srcInum⟩)⟩) ∨
      (j ≠ srcInum ∧ j ≠ newparent ∧ j = parent ∧
        ind = ⟨pp, pn, .directory pdt (files.erase src)⟩) ∨
      (j ≠ srcInum ∧ j ≠ newparent ∧ j ≠ parent ∧ fs.inodes[j]? = some (some ind)) := by
    intro j ind hj
    by_cases h1j : j = srcInum
    · left
      refine ⟨h1j, ?_⟩
      rw [h1j, hT1] at hj
      simp only [Option.some.injEq] at hj
      exact hj.symm
    · by_cases h2j : j = newparent
      · right; left
        refine ⟨h1j, h2j, ?_⟩
        rw [hT2 j h1j h2j] at hj
        simp only [Option.some.injEq] at hj
        exact hj.symm
      · by_cases h3j : j = parent
        · right; right; left
          refine ⟨h1j, h2j, h3j, ?_⟩
          rw [hT3 j h1j h2j h3j] at hj
          simp only [Option.some.injEq] at hj
          exact hj.symm
        · right; right; right
          rw [hT4 j h1j h2j h3j] at hj
          exact ⟨h1j, h2j, h3j, hj⟩
  -- any fs entry other than (parent, src) keeps a valid target in the final state
  have hlift : ∀ (holder : Nat) (nm : String) (de : DirEntry),
      (∃ (i0 : Inode) (dt0 : DirType) (f0 : Children),
        fs.inodes[holder]? = some (some i0) ∧ i0.entry = .directory dt0 f0 ∧
          f0.lookup nm = some de) →
      ¬(holder = parent ∧ nm = src) →
      ∃ c, ((⟨((fs.inodes.set parent
          (some ⟨pp, pn, .directory pdt (files.erase src)⟩)).set newparent
          (some ⟨b1, b2, .directory bdt (bfiles.insert tgt ⟨srcKind, srcInum⟩)⟩)).set
          srcInum (some ⟨newparent, c2.inum, c2.entry⟩), fs.config⟩ : FS)).get de.inum = .ok c ∧
        c.parent = holder ∧ c.entry.kind = de.kind := by
    rintro holder nm de ⟨i0, dt0, f0, hi0, he0, hl0⟩ hexcl
    obtain ⟨c, hcget, hcp, hck⟩ := (hE holder i0 hi0).2 dt0 f0 he0 nm de hl0
    rw [FS.get_ok_iff] at hcget
    by_cases hd1 : de.inum = srcInum
    · exfalso
      have hmain := hU parent _ pdt files src ⟨srcKind, srcInum⟩ holder i0 dt0 f0 nm de
        hps rfl hsrc hi0 he0 hl0 hd1.symm
      exact hexcl ⟨hmain.1.symm, hmain.2.symm⟩
    · by_cases hd2 : de.inum = newparent
      · obtain ⟨dt1, f1, hgnp⟩ := hfsnp
        rw [hd2, hgnp] at hcget
        simp only [Option.some.injEq] at hcget
        rw [← hcget] at hcp hck
        refine ⟨⟨b1, b2, .directory bdt (bfiles.insert tgt ⟨srcKind, srcInum⟩)⟩, ?_, hcp, hck⟩
        rw [FS.get_ok_iff, hd2]
        exact hT2 newparent (fun h => hd1 (hd2.trans h)) rfl
      · by_cases hd3 : de.inum = parent
        · rw [hd3, hps] at hcget
          simp only [Option.some.injEq] at hcget
          rw [← hcget] at hcp hck
          refine ⟨⟨pp, pn, .directory pdt (files.erase src)⟩, ?_, hcp, hck⟩
          rw [FS.get_ok_iff, hd3]
          exact hT3 parent (fun h => hd1 (hd3.trans h)) (fun h => hd2 (hd3.trans h)) rfl
        · refine ⟨c, ?_, hcp, hck⟩
          rw [FS.get_ok_iff]
          exact (hT4 de.inum hd1 hd2 hd3).trans hcget
  -- every entry of the final table is the inserted one or an untouched fs entry
  have hback : ∀ (j : Nat) (ind : Inode) (dt : DirType) (f : Children) (nm : String)
      (de : DirEntry),
      (((fs.inodes.set parent (some ⟨pp, pn, .directory pdt (files.erase src)⟩)).set newparent
        (some ⟨b1, b2, .directory bdt (bfiles.insert tgt ⟨srcKind, srcInum⟩)⟩)).set srcInum
        (some ⟨newparent, c2.inum, c2.entry⟩))[j]? = some (some ind) →
      ind.entry = .directory dt f → f.lookup nm = some de →
      (j = newparent ∧ nm = tgt ∧ de = ⟨srcKind, srcInum⟩) ∨
      (¬(j = parent ∧ nm = src) ∧ ∃ (i0 : Inode) (dt0 : DirType) (f0 : Children),
        fs.inodes[j]? = some (some i0) ∧ i0.entry = .directory dt0 f0 ∧
          f0.lookup nm = some de) := by
    intro j ind dt f nm de hj hje hjl
    rcases hslot j ind hj with ⟨hj1, hj2⟩ | ⟨hj1, hj2, hj3⟩ | ⟨hj1, hj2, hj3, hj4⟩ |
      ⟨hj1, hj2, hj3, hj4⟩
    · rw [hj2] at hje
      dsimp only at hje
      rcases hc2char with ⟨hsn, hc2⟩ | ⟨hsn, hsp, hc2⟩ | ⟨hsn, hsp, hc2⟩
      · rw [hc2] at hje
        dsimp only at hje
        cases hje
        rcases Children.lookup_insert_cases hjl with ⟨hnm, hde⟩ | ⟨hnm, hl⟩
        · exact Or.inl ⟨hj1.trans hsn, hnm, hde⟩
        · obtain ⟨hexcl, i0, dt0, f0, k1, k2, k3⟩ := hbent nm de hl
          refine Or.inr ⟨?_, i0, dt0, f0, ?_, k2, k3⟩
          · intro h
            exact hexcl ⟨((hj1.trans hsn).symm).trans h.1, h.2⟩
          · rw [hj1.trans hsn]
            exact k1
      · rw [hc2] at hje
        dsimp only at hje
        cases hje
        obtain ⟨hns, hl'⟩ := Children.lookup_erase_cases hjl
        refine Or.inr ⟨fun h => hns h.2, ⟨pp, pn, .directory pdt files⟩, pdt, files, ?_,
          rfl, hl'⟩
        rw [hj1.trans hsp]
        exact hps
      · rw [hc2] at hje
        refine Or.inr ⟨?_, c0, dt, f, ?_, hje, hjl⟩
        · intro h
          exact hsp (hj1.symm.trans h.1)
        · rw [hj1]
          exact hc0get
    · rw [hj3] at hje
      dsimp only at hje
      cases hje
      rcases Children.lookup_insert_cases hjl with ⟨hnm, hde⟩ | ⟨hnm, hl⟩
      · exact Or.inl ⟨hj2, hnm, hde⟩
      · obtain ⟨hexcl, i0, dt0, f0, k1, k2, k3⟩ := hbent nm de hl
        refine Or.inr ⟨fun h => hexcl ⟨hj2.symm.trans h.1, h.2⟩, i0, dt0, f0, ?_, k2, k3⟩
        rw [hj2]
        exact k1
    · rw [hj4] at hje
      dsimp only at hje
      cases hje
      obtain ⟨hns, hl'⟩ := Children.lookup_erase_cases hjl
      refine Or.inr ⟨fun h => hns h.2, ⟨pp, pn, .directory pdt files⟩, pdt, files, ?_,
        rfl, hl'⟩
      rw [hj3]
      exact hps
    · exact Or.inr ⟨fun h => hj3 h.1, ind, dt, f, hj4, hje, hjl⟩
  -- combined: every entry of the final table has a valid target there
  have hChild : ∀ (j : Nat) (ind : Inode) (dt : DirType) (f : Children) (nm : String)
      (de : DirEntry),
      (((fs.inodes.set parent (some ⟨pp, pn, .directory pdt (files.erase src)⟩)).set newparent
        (some ⟨b1, b2, .directory bdt (bfiles.insert tgt ⟨srcKind, srcInum⟩)⟩)).set srcInum
        (some ⟨newparent, c2.inum, c2.entry⟩))[j]? = some (some ind) →
      ind.entry = .directory dt f → f.lookup nm = some de →
      ∃ c, ((⟨((fs.inodes.set parent
          (some ⟨pp, pn, .directory pdt (files.erase src)⟩)).set newparent
          (some ⟨b1, b2, .directory bdt (bfiles.insert tgt ⟨srcKind, srcInum⟩)⟩)).set
          srcInum (some ⟨newparent, c2.inum, c2.entry⟩), fs.config⟩ : FS)).get de.inum = .ok c ∧
        c.parent = j ∧ c.entry.kind = de.kind := by
    intro j ind dt f nm de hj hje hjl
    rcases hback j ind dt f nm de hj hje hjl with ⟨hjn, hnm, hde⟩ |
      ⟨hexcl, i0, dt0, f0, k1, k2, k3⟩
    · refine ⟨⟨newparent, c2.inum, c2.entry⟩, ?_, hjn.symm, ?_⟩
      · rw [FS.get_ok_iff, hde]
        exact hT1
      · rw [hde]
        exact hc2kind
    · exact hlift j nm de ⟨i0, dt0, f0, k1, k2, k3⟩ hexcl
  constructor
  · intro j ind hind
    have hind' : (((fs.inodes.set parent
        (some ⟨pp, pn, .directory pdt (files.erase src)⟩)).set newparent
        (some ⟨b1, b2, .directory bdt (bfiles.insert tgt ⟨srcKind, srcInum⟩)⟩)).set srcInum
        (some ⟨newparent, c2.inum, c2.entry⟩))[j]? = some (some ind) := hind
    refine ⟨?_, ?_⟩
    · rcases hslot j ind hind' with ⟨hj1, hj2⟩ | ⟨hj1, hj2, hj3⟩ | ⟨hj1, hj2, hj3, hj4⟩ |
        ⟨hj1, hj2, hj3, hj4⟩
      · rw [hj2, hj1]
        exact hc2inum
      · rw [hj3, hj2]
        exact hb2
      · rw [hj4, hj3]
        exact hpn
      · exact (hE j ind hj4).1
    · intro dt f hie nm de hl
      exact hChild j ind dt f nm de hind' hie hl
  · intro j1 i1 dt1 f1 n1 de1 j2 i2 dt2 f2 n2 de2 h1' he1 hl1 h2' he2 hl2 heq
    rcases hback j1 i1 dt1 f1 n1 de1 h1' he1 hl1 with ⟨hA1, hB1, hC1⟩ |
      ⟨hx1, i01, dt01, f01, g1, g2, g3⟩ <;>
      rcases hback j2 i2 dt2 f2 n2 de2 h2' he2 hl2 with ⟨hA2, hB2, hC2⟩ |
        ⟨hx2, i02, dt02, f02, k1, k2, k3⟩
    · exact ⟨hA1.trans hA2.symm, hB1.trans hB2.symm⟩
    · exfalso
      rw [hC1] at heq
      have hmain := hU parent _ pdt files src ⟨srcKind, srcInum⟩ j2 i02 dt02 f02 n2 de2
        hps rfl hsrc k1 k2 k3 heq
      exact hx2 ⟨hmain.1.symm, hmain.2.symm⟩
    · exfalso
      rw [hC2] at heq
      have hmain := hU j1 i01 dt01 f01 n1 de1 parent _ pdt files src ⟨srcKind, srcInum⟩
        g1 g2 g3 hps rfl hsrc heq
      exact hx1 ⟨hmain.1, hmain.2⟩
    · exact hU j1 i01 dt01 f01 n1 de1 j2 i02 dt02 f02 n2 de2 g1 g2 g3 k1 k2 k3 heq

theorem modifyChildren_dir (fs : FS) {j p i : Nat} {dt : DirType} {files : Children}
    (f : Children → Children)
    (h : fs.inodes[j]? = some (some ⟨p, i, .directory dt files⟩)) :
    fs.modifyChildren j f =
      some { fs with inodes := fs.inodes.set j (some ⟨p, i, .directory dt (f files)⟩) } := by
  unfold FS.modifyChildren
  rw [h]

theorem write_stateInv (fs : FS) (req : Request) (ino : Nat) (offset : Int)
    (data : List Nat) (hinv : StateInv fs) :
    StateInv (fs.write req ino offset data).2 := by
  unfold FS.write
  dsimp only
  split
  · exact hinv
  split
  · exact hinv
  split
  · exact hinv
  next inode heq =>
    split
    · exact hinv
    next contents hentry =>
      refine stateInv_set_file fs ino inode.parent inode.inum contents _ ?_ hinv
      rw [← hentry]
      exact FS.get_ok_iff.mp heq

theorem unlink_stateInv (fs : FS) (req : Request) (parent : Nat) (name : String)
    (hinv : StateInv fs) : StateInv (fs.unlink req parent name).2 := by
  unfold FS.unlink
  dsimp only
  split
  · exact hinv
  split
  · exact hinv
  next pInode heq =>
    split
    · exact hinv
    next dt files hentry =>
      split
      · refine stateInv_erase_child fs parent pInode.parent pInode.inum dt files name ?_ hinv
        rw [← hentry]
        exact FS.get_ok_iff.mp heq
      · exact hinv

theorem rmdir_stateInv (fs : FS) (req : Request) (parent : Nat) (name : String)
    (hinv : StateInv fs) : StateInv (fs.rmdir req parent name).2 := by
  unfold FS.rmdir
  dsimp only
  split
  · exact hinv
  split
  · exact hinv
  next pInode heq =>
    split
    · exact hinv
    next dt files hentry =>
      split
      · split
        · split
          · exact hinv
          · refine stateInv_erase_child fs parent pInode.parent pInode.inum dt files name ?_ hinv
            rw [← hentry]
            exact FS.get_ok_iff.mp heq
        · exact hinv
      · exact hinv
      · exact hinv

theorem fallocate_stateInv (fs : FS) (req : Request) (ino : Nat)
    (offset length mode : Int) (hinv : StateInv fs) :
    StateInv (fs.fallocate req ino offset length mode).2 := by
  unfold FS.fallocate
  dsimp only
  split
  · exact hinv
  split
  · exact hinv
  split
  · exact hinv
  split
  · next p n contents heq =>
      exact stateInv_set_file fs ino p n contents _ (FS.get_ok_iff.mp heq) hinv
  · exact hinv
  · exact hinv

theorem mkdir_stateInv (fs : FS) (req : Request) (parent : Nat) (name : String)
    (hinv : StateInv fs) : StateInv (fs.mkdir req parent name).2 := by
  unfold FS.mkdir
  dsimp only
  split
  · exact hinv
  split
  · exact hinv
  next pInode heq =>
    split
    · exact hinv
    next dt files hentry =>
      split
      · exact hinv
      next hmem =>
        dsimp only [FS.freshInode]
        have hslot : fs.inodes[parent]? =
            some (some ⟨pInode.parent, pInode.inum, .directory dt files⟩) := by
          rw [← hentry]
          exact FS.get_ok_iff.mp heq
        have happend : ({ fs with inodes :=
            fs.inodes ++ [some (⟨parent, fs.inodes.length, .directory .named ∅⟩ : Inode)] } : FS).inodes[parent]? =
            some (some ⟨pInode.parent, pInode.inum, .directory dt files⟩) := by
          dsimp only
          rw [List.getElem?_append_left (lt_of_getElem?_some hslot)]
          exact hslot
        split
        · next hnone =>
            rw [modifyChildren_dir _ _ happend] at hnone
            cases hnone
        · next fs2 hsome =>
            rw [modifyChildren_dir _ _ happend] at hsome
            cases hsome
            have hres := stateInv_add_child fs parent pInode.parent pInode.inum dt files
              name (.directory .named ∅) .directory hslot rfl
              (by intro dt2 ch2 hch nm de hl
                  cases hch
                  rw [Finmap.lookup_empty] at hl
                  cases hl)
              hinv
            split
            · exact hres
            · exact hres

theorem mknod_stateInv (fs : FS) (req : Request) (parent : Nat) (name : String)
    (mode : Nat) (hinv : StateInv fs) : StateInv (fs.mknod req parent name mode).2 := by
  unfold FS.mknod
  dsimp only
  split
  · exact hinv
  split
  · exact hinv
  split
  · exact hinv
  next pInode heq =>
    split
    · exact hinv
    next dt files hentry =>
      split
      · exact hinv
      next hmem =>
        have hslot : fs.inodes[parent]? =
            some (some ⟨pInode.parent, pInode.inum, .directory dt files⟩) := by
          rw [← hentry]
          exact FS.get_ok_iff.mp heq
        by_cases hft : mode &&& 0o170000 = 0o100000
        · rw [if_pos hft]
          dsimp only [FS.freshInode]
          have happend : ({ fs with inodes :=
              fs.inodes ++ [some (⟨parent, fs.inodes.length, .file []⟩ : Inode)] } : FS).inodes[parent]? =
              some (some ⟨pInode.parent, pInode.inum, .directory dt files⟩) := by
            dsimp only
            rw [List.getElem?_append_left (lt_of_getElem?_some hslot)]
            exact hslot
          split
          · next hnone =>
              rw [modifyChildren_dir _ _ happend] at hnone
              cases hnone
          · next fs2 hsome =>
              rw [modifyChildren_dir _ _ happend] at hsome
              cases hsome
              have hres := stateInv_add_child fs parent pInode.parent pInode.inum dt files
                name (.file []) .regularFile hslot rfl
                (by intro dt2 ch2 hch nm de hl; cases hch)
                hinv
              split
              · exact hres
              · exact hres
        · rw [if_neg hft]
          dsimp only [FS.freshInode]
          have happend : ({ fs with inodes :=
              fs.inodes ++ [some (⟨parent, fs.inodes.length, .directory .named ∅⟩ : Inode)] } : FS).inodes[parent]? =
              some (some ⟨pInode.parent, pInode.inum, .directory dt files⟩) := by
            dsimp only
            rw [List.getElem?_append_left (lt_of_getElem?_some hslot)]
            exact hslot
          split
          · next hnone =>
              rw [modifyChildren_dir _ _ happend] at hnone
              cases hnone
          · next fs2 hsome =>
              rw [modifyChildren_dir _ _ happend] at hsome
              cases hsome
              have hres := stateInv_add_child fs parent pInode.parent pInode.inum dt files
                name (.directory .named ∅) .directory hslot rfl
                (by intro dt2 ch2 hch nm de hl
                    cases hch
                    rw [Finmap.lookup_empty] at hl
                    cases hl)
                hinv
              split
              · exact hres
              · exact hres

theorem rename_stateInv (fs : FS) (req : Request) (parent : Nat) (name : String)
    (newparent : Nat) (newname : String) (hinv : StateInv fs) :
    StateInv (fs.rename req parent name newparent newname).2 := by
  unfold FS.rename
  dsimp only
  split
  · exact hinv
  split
  · exact hinv
  split
  · next p1 i1 dt1 files heq =>
    split
    · exact hinv
    next srcDe hlook =>
      split
      · next p2 i2 dt2 nfiles heq2 =>
        have hps' : fs.inodes[parent]? = some (some ⟨p1, i1, .directory dt1 files⟩) :=
          FS.get_ok_iff.mp heq
        split
        · exact hinv
        next tgtInfo heq3 =>
          split
          · exact hinv
          next u heq4 =>
            split
            · exact hinv
            next fs1 h1 =>
              split
              · obtain ⟨pp, pn, pdt, pfiles, hips, hfs1⟩ := modifyChildren_some_inv h1
                subst hfs1
                exact stateInv_erase_child fs parent pp pn pdt pfiles name hips hinv
              next fs2 h2 =>
                split
                · next c h3 =>
                  exact stateInv_rename_commit fs parent newparent srcDe.inum name newname
                    srcDe.kind p1 i1 dt1 files hps' hlook fs1 fs2 c h1 h2 h3 hinv
                · next hno =>
                  exfalso
                  obtain ⟨pp, pn, pdt, pfiles, hips, hfs1⟩ := modifyChildren_some_inv h1
                  subst hfs1
                  obtain ⟨b1, b2, bdt, bfiles, hb, hfs2⟩ := modifyChildren_some_inv h2
                  subst hfs2
                  obtain ⟨c0, hc0get, _, _⟩ :=
                    (hinv.1 parent _ hps').2 dt1 files rfl name srcDe hlook
                  rw [FS.get_ok_iff] at hc0get
                  have hT2 : ∀ (i : Inode),
                      ((fs.inodes.set parent
                        (some ⟨pp, pn, .directory pdt (pfiles.erase name)⟩)).set newparent
                        (some ⟨b1, b2, .directory bdt (bfiles.insert newname
                          ⟨srcDe.kind, srcDe.inum⟩)⟩))[srcDe.inum]? = some (some i) → False :=
                    fun i h => hno i h
                  by_cases hsn : srcDe.inum = newparent
                  · refine hT2 ⟨b1, b2, .directory bdt
                      (bfiles.insert newname ⟨srcDe.kind, srcDe.inum⟩)⟩ ?_
                    rw [hsn]
                    exact getElem?_set_self_of_some hb
                  · by_cases hsp : srcDe.inum = parent
                    · refine hT2 ⟨pp, pn, .directory pdt (pfiles.erase name)⟩ ?_
                      rw [List.getElem?_set_ne (fun h => hsn h.symm), hsp]
                      exact getElem?_set_self_of_some hips
                    · refine hT2 c0 ?_
                      rw [List.getElem?_set_ne (fun h => hsn h.symm),
                        List.getElem?_set_ne (fun h => hsp h.symm)]
                      exact hc0get
      · exact hinv
  · exact hinv

theorem dispatch_stateInv (fs : FS) (op : Op) (hinv : StateInv fs) :
    StateInv (dispatch fs op).2 := by
  cases op with
  | access _ _ _ => exact hinv
  | lookup _ _ _ => exact hinv
  | getattr _ _ => exact hinv
  | read _ _ _ => exact hinv
  | readdir _ _ => exact hinv
  | mknod req parent name mode => exact mknod_stateInv fs req parent name mode hinv
  | mkdir req parent name => exact mkdir_stateInv fs req parent name hinv
  | write req ino offset data => exact write_stateInv fs req ino offset data hinv
  | unlink req parent name => exact unlink_stateInv fs req parent name hinv
  | rmdir req parent name => exact rmdir_stateInv fs req parent name hinv
  | rename req parent name newparent newname =>
      exact rename_stateInv fs req parent name newparent newname hinv
  | fallocate req ino offset length mode =>
      exact fallocate_stateInv fs req ino offset length mode hinv

theorem applyOps_stateInv (fs : FS) (ops : List Op) (hinv : StateInv fs) :
    StateInv (applyOps fs ops) := by
  induction ops generalizing fs with
  | nil => exact hinv
  | cons op rest ih => exact ih (dispatch fs op).2 (dispatch_stateInv fs op hinv)


/-- C1: after ingestion and after any sequence of dispatcher operations,
every directory entry (name, kind, inum) held by a live directory inode P
references a live inode: get succeeds, the referenced inode's parent field
is P's inum, and its entry kind equals the entry's recorded kind. -/
theorem c1_entry_targets (cfg : Config) (v : Value) (st0 : FS) (ops : List Op)
    (hingest : Json.fs cfg v = some st0)
    (P : Inode) (j : Nat) (dt : DirType) (ch : Children) (name : String) (de : DirEntry)
    (hP : (applyOps st0 ops).inodes[j]? = some (some P))
    (hdir : P.entry = .directory dt ch)
    (hchild : ch.lookup name = some de) :
    ∃ c, (applyOps st0 ops).get de.inum = .ok c ∧ c.parent = P.inum ∧
      c.entry.kind = de.kind := by
  have hsi := applyOps_stateInv st0 ops (json_fs_stateInv cfg v st0 hingest)
  obtain ⟨hE, _⟩ := hsi
  have hj := (hE j P hP).1
  obtain ⟨c, hc, hcp, hck⟩ := (hE j P hP).2 dt ch hdir name de hchild
  refine ⟨c, hc, ?_, hck⟩
  rw [hj]
  exact hcp

/-- C1 witness: the invariant instantiated after ingesting [null] and
running one successful mknod: the entry b of the root references inode 3
with the right parent and kind. -/
theorem c1_witness :
    ∃ c, (applyOps stW opsW).get ((⟨FileKind.regularFile, 3⟩ : DirEntry).inum) = .ok c ∧
      c.parent = PW.inum ∧ c.entry.kind = (⟨FileKind.regularFile, 3⟩ : DirEntry).kind :=
  c1_entry_targets cfg0 vW stW opsW (by rfl) PW 1 .list chW "b" ⟨.regularFile, 3⟩
    (by rfl) rfl rfl

/-- C3 counterexample: ingesting the array [] preallocates two slots, and
slot 0 is None, refuting the claim that every preallocated slot is Some. -/
theorem c3_counterexample :
    ¬ ∀ j, j < stI.inodes.length → ∃ i, stI.inodes[j]? = some (some i) := by
  intro h
  obtain ⟨i, hi⟩ := h 0 (by decide)
  have h0 : stI.inodes[0]? = some none := rfl
  rw [h0] at hi
  cases hi

/-- C3 (amended): ingesting an Array or Object root leaves a table whose
next inode number equals the table length and whose slots at index 1 and
above are all Some; slot 0, although preallocated, stays None. -/
theorem c3_slots (cfg : Config) (v : Value) (ist : IngestSt)
    (h : Json.fsIngest cfg v = some ist) :
    ist.nextId = ist.inodes.length ∧ ist.inodes[0]? = some none ∧
    ∀ j, 1 ≤ j → j < ist.inodes.length → ∃ i, ist.inodes[j]? = some (some i) := by
  obtain ⟨hlen, hnid, h0, hfill⟩ := loopInv_final _ ist (json_fsIngest_loopInv cfg v ist h)
  refine ⟨by omega, h0, ?_⟩
  intro j hj1 hj2
  exact hfill j hj1 (by omega)

/-- C3 witness: the amended theorem instantiated at the ingestion of []. -/
theorem c3_witness :
    stI.nextId = stI.inodes.length ∧ stI.inodes[0]? = some none ∧
    ∀ j, 1 ≤ j → j < stI.inodes.length → ∃ i, stI.inodes[j]? = some (some i) :=
  c3_slots cfg0 (.arr []) stI (by rfl)
